import Mathlib

/-!
# genconfig: the sample-configuration renderer

A shallow embedding of `genconfig/genconfig.go` (package `genconfig`).

Conventions of the embedding

* Go strings are lists of Unicode code points (`Str`); only valid UTF-8 text is
  modelled.
* A Go panic that unwinds the render is the outcome `abort`.
* `vToYaml` is recursive on the shape of the live value, so the embedding
  carries a recursion budget; running out of it is the outcome `starved`, which
  is not a behaviour of the Go program.  `vToYaml_enough` shows that a budget
  above the nesting depth of the value being read never starves.
* The renderer is a state machine over `simpleYamlParser`; every method takes
  the state and yields the new state together with its result.  `indent` is a
  natural number: it starts at Go's zero value and every decrement follows an
  increment.
* Struct types have no embedded (anonymous) fields, so `reflect.VisibleFields`
  lists exactly the declared fields.  Map keys are of string kind.  Types carry
  no methods (no `Stringer`, no JSON marshaller), and values of interface kind
  and byte slices are outside the model.
-/

set_option autoImplicit false

namespace genconfig

/-- Go string, as the list of its code points. -/
abbrev Str := List Char

/-! ## The `strings` package -/

/-- `unicode.IsSpace`. -/
def isSpace (c : Char) : Bool :=
  let n := c.toNat
  n == 0x20 || (0x09 ≤ n && n ≤ 0x0D) || n == 0x85 || n == 0xA0 || n == 0x1680 ||
    (0x2000 ≤ n && n ≤ 0x200A) || n == 0x2028 || n == 0x2029 || n == 0x202F ||
    n == 0x205F || n == 0x3000

/-- `strings.TrimSpace`. -/
def TrimSpace (s : Str) : Str :=
  ((s.dropWhile isSpace).reverse.dropWhile isSpace).reverse

/-- `strings.Repeat(" ", n)`. -/
def Repeat (c : Char) (n : Nat) : Str := List.replicate n c

/-- `strings.Split(s, sep)` for a one-character separator. -/
def Split (sep : Char) : Str → List Str
  | [] => [[]]
  | c :: cs =>
    if c = sep then [] :: Split sep cs
    else
      match Split sep cs with
      | [] => [[c]]
      | x :: xs => (c :: x) :: xs

/-- `strings.Contains(s, sub)`. -/
def Contains : Str → Str → Bool
  | [], sub => sub.isEmpty
  | c :: cs, sub => sub.isPrefixOf (c :: cs) || Contains cs sub

/-! ## The `reflect` package: kinds, types, struct fields, values -/

/-- `reflect.Kind`. -/
inductive Kind where
  | Invalid | Bool | Int | Int8 | Int16 | Int32 | Int64
  | Uint | Uint8 | Uint16 | Uint32 | Uint64 | Uintptr
  | Float32 | Float64 | Complex64 | Complex128
  | Array | Chan | Func | Interface | Map | Ptr | Slice | String | Struct
  | UnsafePointer
  deriving DecidableEq, Repr

/-- `reflect.StructTag`, already split into its `key:"value"` pairs. -/
abbrev StructTag := List (Str × Str)

/-- `StructTag.Get`: the value of the first pair with this key, or `""`. -/
def StructTag.Get (tag : StructTag) (key : Str) : Str :=
  match tag.find? (fun p => p.1 == key) with
  | some p => p.2
  | none => []

mutual
/-- `reflect.Type`, as far as the renderer looks at it. -/
inductive GoType where
  /-- a type of kind `k` with no component the renderer could reach -/
  | Basic (k : Kind)
  | Ptr (elem : GoType)
  | Slice (elem : GoType)
  | Map (key elem : GoType)
  | Struct (fields : List StructField)
/-- `reflect.StructField`: `Name`, `PkgPath` (empty for an exported field),
`Type` (here `Typ`) and `Tag`. -/
inductive StructField where
  | mk (Name PkgPath : Str) (Typ : GoType) (Tag : StructTag)
end

/-- `StructField.Name`. -/
def StructField.Name : StructField → Str
  | .mk n _ _ _ => n

/-- `StructField.PkgPath`. -/
def StructField.PkgPath : StructField → Str
  | .mk _ p _ _ => p

/-- `StructField.Type`. -/
def StructField.Typ : StructField → GoType
  | .mk _ _ t _ => t

/-- `StructField.Tag`. -/
def StructField.Tag : StructField → StructTag
  | .mk _ _ _ t => t

/-- `Type.Kind`. -/
def GoType.Kind : GoType → Kind
  | .Basic k => k
  | .Ptr _ => .Ptr
  | .Slice _ => .Slice
  | .Map _ _ => .Map
  | .Struct _ => .Struct

/-- The fields `Type.Field(0)`, ..., `Type.Field(NumField()-1)` of a struct type. -/
def GoType.Fields : GoType → List StructField
  | .Struct fs => fs
  | _ => []

/-- A Go value held in an `any`. -/
inductive GoValue where
  | String (s : Str)
  /-- a value of any of the integer kinds -/
  | Int (i : Int)
  | Bool (b : Bool)
  /-- a struct value: its type's fields in declaration order, each with its value -/
  | Struct (fields : List (StructField × GoValue))
  /-- a map value with keys of string kind, its entries in the order `MapKeys`
  yields them; `none` is the nil map -/
  | Map (entries : Option (List (Str × GoValue)))
  /-- a slice value; `none` is the nil slice -/
  | Slice (elems : Option (List GoValue))
  /-- the nil pointer -/
  | NilPtr
  /-- a value of floating-point, complex, channel or function kind, with the
  text `fmt` prints for it under `%v` -/
  | Other (text : Str)

/-! ## The `fmt` package: the `%v` verb -/

/-- Decimal text of an integer, as `%v` prints it. -/
def intText (i : Int) : Str :=
  if i < 0 then '-' :: Nat.toDigits 10 i.natAbs else Nat.toDigits 10 i.toNat

/-- Joins texts with single spaces, as `fmt` separates the parts of a
composite value. -/
def joinSpace : List Str → Str
  | [] => []
  | [x] => x
  | x :: y :: r => x ++ ' ' :: joinSpace (y :: r)

/-- Inserts a printed map entry into a list sorted by key (`fmt` prints maps in
key order). -/
def insertByKey (e : Str × Str) : List (Str × Str) → List (Str × Str)
  | [] => [e]
  | x :: r => if x.1 < e.1 then x :: insertByKey e r else e :: x :: r

mutual
/-- What `fmt` prints for a value under `%v`. -/
def printValue : GoValue → Str
  | .String s => s
  | .Int i => intText i
  | .Bool b => if b then "true".toList else "false".toList
  | .Struct fs => '{' :: joinSpace (printFields fs) ++ ['}']
  | .Map none => "map[]".toList
  | .Map (some es) =>
    "map[".toList ++
      joinSpace (((printEntries es).foldr insertByKey []).map (fun e => e.1 ++ ':' :: e.2)) ++ [']']
  | .Slice none => "[]".toList
  | .Slice (some xs) => '[' :: joinSpace (printElems xs) ++ [']']
  | .NilPtr => "<nil>".toList
  | .Other text => text
/-- The printed field values of a struct. -/
def printFields : List (StructField × GoValue) → List Str
  | [] => []
  | (_, x) :: r => printValue x :: printFields r
/-- The entries of a map, each value printed. -/
def printEntries : List (Str × GoValue) → List (Str × Str)
  | [] => []
  | (k, x) :: r => (k, printValue x) :: printEntries r
/-- The printed elements of a slice. -/
def printElems : List GoValue → List Str
  | [] => []
  | x :: r => printValue x :: printElems r
end

/-- A `reflect.Value`. -/
inductive Value where
  /-- the zero `Value` -/
  | Invalid
  /-- a value; `ro` is set when it was reached through an unexported field -/
  | Of (x : GoValue) (ro : Bool)

/-- `fmt.Sprintf("%v", x)` for a `reflect.Value` `x` (types carry no methods). -/
def Sprintf : Value → Str
  | .Invalid => "<invalid reflect.Value>".toList
  | .Of x _ => printValue x

/-- `reflect.ValueOf(x).FieldByName(name)` for a non-nil `x`; `none` is the
panic on a value that is not a struct. -/
def FieldByName : GoValue → Str → Option Value
  | .Struct fs, name =>
    match fs.find? (fun p => p.1.Name == name) with
    | some p => some (.Of p.2 (p.1.PkgPath != []))
    | none => some .Invalid
  | _, _ => none

/-- `Value.Interface`; `none` is its panic, on the zero `Value` and on a value
reached through an unexported field. -/
def Value.Interface : Value → Option GoValue
  | .Invalid => none
  | .Of x ro => if ro then none else some x

/-- `reflect.ValueOf(m).MapKeys()`, each key as its `String()`; `none` is the
panic on a value that is not a map. -/
def MapKeys : GoValue → Option (List Str)
  | .Map none => some []
  | .Map (some es) => some (es.map Prod.fst)
  | _ => none

/-- `reflect.ValueOf(m).MapIndex(key)`; the zero `Value` when the key is absent. -/
def MapIndex : GoValue → Str → Value
  | .Map (some es), key =>
    match es.find? (fun e => e.1 == key) with
    | some e => .Of e.2 false
    | none => .Invalid
  | _, _ => .Invalid

/-- The fields of the type of a struct value: `reflect.VisibleFields(reflect.TypeOf(x))`,
and `Type().Field(0..NumField()-1)`; `none` is the panic on a value that is not
a struct. -/
def structFields : GoValue → Option (List StructField)
  | .Struct fs => some (fs.map Prod.fst)
  | _ => none

/-! ## The `encoding/json` package -/

/-- One element of a JSON array decoded into a Go `string`: a JSON string
decodes to itself, `null` leaves the empty string, anything else is an error. -/
def jsonElem : GoValue → Option Str
  | .String s => some s
  | .Map none => some []
  | .Slice none => some []
  | .NilPtr => some []
  | _ => none

/-- The elements of a JSON array decoded into Go strings. -/
def jsonElems : List GoValue → Option (List Str)
  | [] => some []
  | x :: r =>
    match jsonElem x, jsonElems r with
    | some s, some ss => some (s :: ss)
    | _, _ => none

/-- `json.Marshal(x)` followed by `json.Unmarshal` of the bytes into a
`[]string`; `none` when either reports an error.  (Byte slices, which
`encoding/json` writes as text, are not modelled.) -/
def jsonStrings : GoValue → Option (List Str)
  | .Slice none => some []
  | .Map none => some []
  | .NilPtr => some []
  | .Slice (some xs) => jsonElems xs
  | _ => none

/-! ## The renderer -/

/-- How a call ends. -/
inductive Outcome (α : Type) where
  /-- normal return -/
  | ret (a : α)
  /-- a panic that nothing recovers -/
  | abort
  /-- the recursion budget of the embedding ran out -/
  | starved

/-- The renderer state. -/
structure simpleYamlParser where
  indent : Nat
  originalValue : Option GoValue
  currVal : Option GoValue
  defaultOnly : Bool

/-- What a rendering call yields: the text and the state it leaves. -/
abbrev Rendered := Outcome (Str × simpleYamlParser)

/-- The method `_getValue`: the field of the current substructure, or of the
original value when no substructure is set; a panic inside is recovered and
the zero `Value` returned. -/
def _getValue (c : simpleYamlParser) (field : Str) : Value :=
  match c.currVal with
  | some cv => (FieldByName cv field).getD .Invalid
  | none =>
    match c.originalValue with
    | some ov => (FieldByName ov field).getD .Invalid
    | none => .Invalid

/-- A loop `for ... { str += c.vToYaml(field) }` over fields, `rec` being
`c.vToYaml`. -/
def fieldLoop (rec : simpleYamlParser → StructField → Rendered) :
    List StructField → Str → simpleYamlParser → Rendered
  | [], str, c => .ret (str, c)
  | f :: fs, str, c =>
    match rec c f with
    | .ret (s, c) => fieldLoop rec fs (str ++ s) c
    | .abort => .abort
    | .starved => .starved

/-- The loop of the struct case of `vToYaml` over the fields of the field type;
`name` is `v.Name`. -/
def structLoop (rec : simpleYamlParser → StructField → Rendered) (name : Str) :
    List StructField → Str → simpleYamlParser → Rendered
  | [], str, c => .ret (str, c)
  | f :: fs, str, c =>
    let currVal := c.currVal
    match (_getValue c name).Interface with
    | none => .abort
    | some x =>
      match rec { c with currVal := some x } f with
      | .ret (s, c) => structLoop rec name fs (str ++ s) { c with currVal := currVal }
      | .abort => .abort
      | .starved => .starved

/-- The loop of the map case of `vToYaml` over the keys of `mapValue`. -/
def mapLoop (rec : simpleYamlParser → StructField → Rendered) (mapValue : GoValue) :
    List Str → Str → simpleYamlParser → Rendered
  | [], str, c => .ret (str, c)
  | key :: keys, str, c =>
    let c := { c with indent := c.indent + 1 }
    let str := str ++ Repeat ' ' (c.indent * 2) ++ key ++ ":\n".toList
    let c := { c with indent := c.indent + 1 }
    match (MapIndex mapValue key).Interface with
    | none => .abort
    | some structValue =>
      let currVal := c.currVal
      let c := { c with currVal := some structValue }
      match structFields structValue with
      | none => .abort
      | some fields =>
        match fieldLoop rec fields str c with
        | .ret (str, c) =>
          let c := { c with currVal := currVal }
          let c := { c with indent := c.indent - 1 }
          let c := { c with indent := c.indent - 1 }
          mapLoop rec mapValue keys str c
        | .abort => .abort
        | .starved => .starved

/-- The body of `case reflect.Struct:` in `vToYaml`; `rec` is the recursive
call `c.vToYaml`. -/
def caseStruct (rec : simpleYamlParser → StructField → Rendered)
    (c : simpleYamlParser) (v : StructField) : Rendered :=
  let structName := v.Tag.Get "yaml".toList
  let str := Repeat ' ' (c.indent * 2) ++ structName ++ ":\n".toList
  let c := { c with indent := c.indent + 1 }
  match structLoop rec v.Name v.Typ.Fields str c with
  | .ret (str, c) =>
    let c := { c with indent := c.indent - 1 }
    if c.indent == 0 then .ret (str ++ "\n".toList, c) else .ret (str, c)
  | .abort => .abort
  | .starved => .starved

/-- The body of `case reflect.Map:` in `vToYaml`. -/
def caseMap (rec : simpleYamlParser → StructField → Rendered)
    (c : simpleYamlParser) (v : StructField) : Rendered :=
  let mapName := v.Tag.Get "yaml".toList
  let str := Repeat ' ' (c.indent * 2) ++ mapName ++ ":\n".toList
  match (_getValue c v.Name).Interface with
  | none => .abort
  | some mapValue =>
    match MapKeys mapValue with
    | none => .abort
    | some mapKeys =>
      match mapLoop rec mapValue mapKeys str c with
      | .ret (str, c) =>
        if c.indent == 0 then .ret (str ++ "\n".toList, c) else .ret (str, c)
      | .abort => .abort
      | .starved => .starved

/-- The body of `case reflect.Slice:` in `vToYaml`. -/
def caseSlice (c : simpleYamlParser) (v : StructField) : Rendered :=
  match (_getValue c v.Name).Interface with
  | none => .abort
  | some sliceValue =>
    let vName := v.Tag.Get "yaml".toList
    let comment := v.Tag.Get "comment".toList
    match jsonStrings sliceValue with
    | none => .abort
    | some splitValueCasted =>
      let split :=
        if splitValueCasted.length == 0 || c.defaultOnly then
          Split ',' (v.Tag.Get "default".toList)
        else
          splitValueCasted.map (fun e =>
            if comment == [] then e else e ++ " # ".toList ++ comment)
      let str := Repeat ' ' (c.indent * 2) ++ vName ++ ":\n".toList
      let c := { c with indent := c.indent + 1 }
      let str := split.foldl
        (fun str s =>
          str ++ Repeat ' ' (c.indent * 2) ++ "- ".toList ++ TrimSpace s ++ "\n".toList)
        str
      let c := { c with indent := c.indent - 1 }
      .ret (str, c)

/-- The body of the case of the string, boolean and integer kinds in `vToYaml`. -/
def casePrimitive (c : simpleYamlParser) (v : StructField) : Rendered :=
  let defTag := v.Tag.Get "default".toList
  let valInt := Sprintf (_getValue c v.Name)
  let defTag :=
    if !c.defaultOnly && !Contains valInt "<invalid reflect.Value>".toList then valInt
    else defTag
  let commentTag := v.Tag.Get "comment".toList
  let requiredTag := v.Tag.Get "required".toList
  let requiredTag :=
    if requiredTag != "true".toList && requiredTag != "false".toList then "true".toList
    else requiredTag
  let yamlName := v.Tag.Get "yaml".toList
  let str :=
    if defTag != [] then Repeat ' ' (c.indent * 2) ++ yamlName ++ ": ".toList ++ defTag
    else Repeat ' ' (c.indent * 2) ++ yamlName ++ ":".toList
  let str := if commentTag != [] then str ++ " # ".toList ++ commentTag else str
  let str :=
    if requiredTag == "false".toList then
      if commentTag != [] then str ++ " (optional)".toList else str ++ " # (optional)".toList
    else str
  .ret (str ++ "\n".toList, c)

/-- The method `vToYaml`, with a recursion budget as first argument.  (A
`reflect.StructField` always has a type, so the `nil type` panic has no
counterpart.) -/
def vToYaml : Nat → simpleYamlParser → StructField → Rendered
  | 0, _, _ => .starved
  | fuel + 1, c, v =>
    match v.Typ.Kind with
    | .Ptr => .abort
    | .Struct => caseStruct (vToYaml fuel) c v
    | .Map => caseMap (vToYaml fuel) c v
    | .Slice => caseSlice c v
    | .String | .Int | .Bool | .Uint64 | .Uint32 | .Uint16 | .Uint8 | .Uint
    | .Int64 | .Int32 | .Int16 | .Int8 => casePrimitive c v
    | _ => .ret ([], c)

/-- The method `Parse`, with the recursion budget of `vToYaml`. -/
def Parse (fuel : Nat) (p : simpleYamlParser) (v : GoValue) : Rendered :=
  let p := { p with originalValue := some v }
  match structFields v with
  | none => .abort
  | some fields =>
    match fieldLoop (vToYaml fuel) fields [] p with
    | .ret (sb, p) => .ret (TrimSpace sb, p)
    | .abort => .abort
    | .starved => .starved

/-- The kinds of the last case of the `switch` in `vToYaml`. -/
def isPrimitiveKind : Kind → Bool
  | .String | .Int | .Bool | .Uint64 | .Uint32 | .Uint16 | .Uint8 | .Uint
  | .Int64 | .Int32 | .Int16 | .Int8 => true
  | _ => false

/-- The kinds no case of the `switch` in `vToYaml` names. -/
def isSkippedKind : Kind → Bool
  | .Invalid | .Uintptr | .Float32 | .Float64 | .Complex64 | .Complex128
  | .Array | .Chan | .Func | .Interface | .UnsafePointer => true
  | _ => false

/-- A renderer that leaves the state as it found it. -/
def Restores (rec : simpleYamlParser → StructField → Rendered) : Prop :=
  ∀ c f s c1, rec c f = .ret (s, c1) → c1 = c

/-- The text `block` is what the map case renders for the key `key` of
`mapValue` from the state `c`: the key line one level below the header, then the
fields of the key's struct value two levels below, resolved against that value. -/
def KeyBlock (rec : simpleYamlParser → StructField → Rendered) (c : simpleYamlParser)
    (mapValue : GoValue) (key : Str) (block : Str) : Prop :=
  ∃ structValue fields texts,
    (MapIndex mapValue key).Interface = some structValue ∧
    structFields structValue = some fields ∧
    List.Forall₂
      (fun f t =>
        rec { c with indent := c.indent + 2, currVal := some structValue } f =
          .ret (t, { c with indent := c.indent + 2, currVal := some structValue }))
      fields texts ∧
    block = Repeat ' ' ((c.indent + 1) * 2) ++ key ++ ":\n".toList ++ texts.flatten

mutual
/-- How deep struct and map values nest inside a value: the recursion of
`vToYaml` goes no deeper. -/
def GoValue.depth : GoValue → Nat
  | .Struct fs => depthFields fs + 1
  | .Map (some es) => depthEntries es + 1
  | _ => 0
/-- The greatest depth among the field values of a struct. -/
def depthFields : List (StructField × GoValue) → Nat
  | [] => 0
  | (_, x) :: r => max x.depth (depthFields r)
/-- The greatest depth among the values of a map. -/
def depthEntries : List (Str × GoValue) → Nat
  | [] => 0
  | (_, x) :: r => max x.depth (depthEntries r)
end

/-- The value a leaf field shows: the text of its live value, or the declared
default `defTag` in defaults-only mode and when the text carries what `fmt`
prints for the zero `Value`. -/
def shownValue (defaultOnly : Bool) (live : Value) (defTag : Str) : Str :=
  if !defaultOnly && !Contains (Sprintf live) "<invalid reflect.Value>".toList then
    Sprintf live
  else defTag

/-- The line of a leaf field up to the optional marker, as the specification
words it: `<indent><name>: <value>`, only `<indent><name>:` when there is no
value; then ` # <comment>` when there is a comment. -/
def leafBase (depth : Nat) (name value comment : Str) : Str :=
  Repeat ' ' (2 * depth) ++ name ++
    (if value = [] then ":".toList else ": ".toList ++ value) ++
    (if comment = [] then [] else " # ".toList ++ comment)

/-- The line of a leaf field as the specification words it: the line up to the
marker; then, for an optional field, the marker `(optional)`, behind ` #` when
no comment came before; then a newline. -/
def leafLine (depth : Nat) (name value comment : Str) (optional : Bool) : Str :=
  leafBase depth name value comment ++
    (if optional then
      (if comment = [] then " # (optional)".toList else " (optional)".toList)
    else []) ++
    "\n".toList

/-- The header line of a block as the specification words it: `<indent><name>:`. -/
def headerLine (depth : Nat) (name : Str) : Str :=
  Repeat ' ' (2 * depth) ++ name ++ ":\n".toList

/-- The line of a list item as the specification words it: `- <item>`, one
level below the header at `depth`, the item trimmed. -/
def itemLine (depth : Nat) (item : Str) : Str :=
  Repeat ' ' (2 * (depth + 1)) ++ "- ".toList ++ TrimSpace item ++ "\n".toList

mutual
/-- A field type leads to a pointer through struct nesting alone: it is of
pointer kind, or a struct type one of whose fields leads to a pointer. -/
def GoType.reachesPtr : GoType → Bool
  | .Basic k => k == .Ptr
  | .Ptr _ => true
  | .Slice _ => false
  | .Map _ _ => false
  | .Struct fs => fieldsReachPtr fs
/-- The type of the field leads to a pointer. -/
def StructField.reachesPtr : StructField → Bool
  | .mk _ _ t _ => t.reachesPtr
/-- One of the fields leads to a pointer. -/
def fieldsReachPtr : List StructField → Bool
  | [] => false
  | f :: r => f.reachesPtr || fieldsReachPtr r
end

/-- The renderer state of the composite literal `simpleYamlParser{defaultOnly: d}`:
every other field has Go's zero value. -/
def newParser (defaultOnly : Bool) : simpleYamlParser :=
  { indent := 0, originalValue := none, currVal := none, defaultOnly := defaultOnly }

/-- The text of a rendering that returned. -/
def Outcome.text : Rendered → Option Str
  | .ret (s, _) => some s
  | _ => none

/-! ## The example type of the specification -/

/-- The field `Name string` with the annotation `default:"app"`, as the
specification writes it. -/
def specName : StructField :=
  .mk "Name".toList [] (.Basic .String) [("default".toList, "app".toList)]

/-- The field `Port int` with the annotations `default:"8080"` and
`comment:"listen port"`, as the specification writes it. -/
def specPort : StructField :=
  .mk "Port".toList [] (.Basic .Int)
    [("default".toList, "8080".toList), ("comment".toList, "listen port".toList)]

/-- A value of the example struct of the specification. -/
def specExample (name : Str) (port : Int) : GoValue :=
  .Struct [(specName, .String name), (specPort, .Int port)]

/-- The field `Name` with the display name `yaml:"name"` added. -/
def yamlName : StructField :=
  .mk "Name".toList [] (.Basic .String)
    [("yaml".toList, "name".toList), ("default".toList, "app".toList)]

/-- The field `Port` with the display name `yaml:"port"` added. -/
def yamlPort : StructField :=
  .mk "Port".toList [] (.Basic .Int)
    [("yaml".toList, "port".toList), ("default".toList, "8080".toList),
      ("comment".toList, "listen port".toList)]

/-- A string field `Banner` with the display name `banner` and the default `5`. -/
def bannerField : StructField :=
  .mk "Banner".toList [] (.Basic .String)
    [("yaml".toList, "banner".toList), ("default".toList, "5".toList)]

/-- An optional integer field `Limit` with the comment `desc` and no default. -/
def limitField : StructField :=
  .mk "Limit".toList [] (.Basic .Int)
    [("yaml".toList, "limit".toList), ("comment".toList, "desc".toList),
      ("required".toList, "false".toList)]

/-- A list field `Tags` with the display name `tags`, the default `a, b ,c` and
the element type `elem`. -/
def tagsField (elem : GoType) : StructField :=
  .mk "Tags".toList [] (.Slice elem)
    [("yaml".toList, "tags".toList), ("default".toList, "a, b ,c".toList)]

/-- The list field `Tags` of strings with the comment `c` added. -/
def tagsCommented : StructField :=
  .mk "Tags".toList [] (.Slice (.Basic .String))
    [("yaml".toList, "tags".toList), ("default".toList, "a, b ,c".toList),
      ("comment".toList, "c".toList)]

/-- A string field `Addr` with the display name `addr`. -/
def addrField : StructField :=
  .mk "Addr".toList [] (.Basic .String) [("yaml".toList, "addr".toList)]

/-- A map field `Hosts` with the display name `hosts`, from strings to structs
with the one field `Addr`. -/
def hostsField : StructField :=
  .mk "Hosts".toList [] (.Map (.Basic .String) (.Struct [addrField]))
    [("yaml".toList, "hosts".toList)]

/-- A live value of `Hosts` with the keys `x` and `y`, in that order. -/
def hostsValue : GoValue :=
  .Map (some [("x".toList, .Struct [(addrField, .String "1".toList)]),
    ("y".toList, .Struct [(addrField, .String "2".toList)])])

/-- A struct field `Peer` with the display name `peer` and the one field `Addr`. -/
def peerField : StructField :=
  .mk "Peer".toList [] (.Struct [addrField]) [("yaml".toList, "peer".toList)]

/-- A root value with its own `Addr`, set to `outer`, beside a `Peer` whose
`Addr` is `inner`. -/
def peerRoot : GoValue :=
  .Struct [(addrField, .String "outer".toList),
    (peerField, .Struct [(addrField, .String "inner".toList)])]

/-- A value of the example struct with display names. -/
def yamlExample (name : Str) (port : Int) : GoValue :=
  .Struct [(yamlName, .String name), (yamlPort, .Int port)]

/-- A string field `Note` with the display name `note` and the default `none`. -/
def noteField : StructField :=
  .mk "Note".toList [] (.Basic .String)
    [("yaml".toList, "note".toList), ("default".toList, "none".toList)]

/-- An unexported list field `tags` of package `main`, with the display name
`tags` and the default `a, b ,c`. -/
def hiddenTags : StructField :=
  .mk "tags".toList "main".toList (.Slice (.Basic .String))
    [("yaml".toList, "tags".toList), ("default".toList, "a, b ,c".toList)]

/-- The live value of `Hosts` with the same entries as `hostsValue`, yielded in
the other order. -/
def hostsSwapped : GoValue :=
  .Map (some [("y".toList, .Struct [(addrField, .String "2".toList)]),
    ("x".toList, .Struct [(addrField, .String "1".toList)])])

/-! ## The `os` package and `GenConfig` -/

/-- A file system: the content of every regular file, by name.  File operations
that fail (and make `GenConfig` panic) are not modelled. -/
abbrev FileSystem := Str → Option Str

/-- `os.Stat(name)` reports no error: the file exists. -/
def Stat (fs : FileSystem) (name : Str) : Bool := (fs name).isSome

/-- `os.Remove(name)`. -/
def Remove (fs : FileSystem) (name : Str) : FileSystem :=
  fun n => if n = name then none else fs n

/-- `os.Create(name)`: the file exists and is empty afterwards. -/
def Create (fs : FileSystem) (name : Str) : FileSystem :=
  fun n => if n = name then some [] else fs n

/-- `f.WriteString(s)` on the file opened under `name`. -/
def WriteString (fs : FileSystem) (name : Str) (s : Str) : FileSystem :=
  fun n => if n = name then some ((fs n).getD [] ++ s) else fs n

/-- The initial value of the package variable `SampleFileName`. -/
def SampleFileName : Str := "config.yaml.sample".toList

/-- The function `GenConfig`, with the recursion budget of `vToYaml`;
`sampleFileName` is the value of the variable `SampleFileName` at the call.
It yields the file system left behind and how the call ended. -/
def GenConfig (fuel : Nat) (sampleFileName : Str) (fs : FileSystem) (cfg : GoValue) :
    FileSystem × Outcome Unit :=
  let syp := newParser true
  let fs := if Stat fs sampleFileName then Remove fs sampleFileName else fs
  let fs := Create fs sampleFileName
  match Parse fuel syp cfg with
  | .ret (text, _) => (WriteString fs sampleFileName text, .ret ())
  | .abort => (fs, .abort)
  | .starved => (fs, .starved)

/-- A file system with an older sample file and one other file. -/
def oldFiles : FileSystem :=
  fun n =>
    if n = "config.yaml.sample".toList then some "stale: 1\nmore: 2".toList
    else if n = "config.yaml".toList then some "name: live".toList
    else none

/-! ## Two runs side by side -/

/-- How a rendering ended and the text it returned, the state left out. -/
def Outcome.strip : Rendered → Outcome Str
  | .ret (s, _) => .ret s
  | .abort => .abort
  | .starved => .starved

/-- Both absent, or both present and related. -/
def OptRel {α β : Type} (P : α → β → Prop) : Option α → Option β → Prop
  | none, none => True
  | some a, some b => P a b
  | _, _ => False

/-- Both the zero `Value`, or both valid, reached alike through exported or
unexported fields, and holding related values. -/
def ValueRel (R : GoValue → GoValue → Prop) : Value → Value → Prop
  | .Invalid, .Invalid => True
  | .Of x r1, .Of y r2 => r1 = r2 ∧ R x y
  | _, _ => False

/-- The relation `R` on live values is kept by everything the renderer reads
from a value, and in the mode `d` related values show the same. -/
structure Simulates (d : Bool) (R : GoValue → GoValue → Prop) : Prop where
  field : ∀ x y name, R x y →
    ValueRel R ((FieldByName x name).getD .Invalid) ((FieldByName y name).getD .Invalid)
  keys : ∀ x y, R x y → MapKeys x = MapKeys y
  index : ∀ x y key, R x y → ValueRel R (MapIndex x key) (MapIndex y key)
  fields : ∀ x y, R x y → structFields x = structFields y
  slice : ∀ x y, R x y →
    jsonStrings x = jsonStrings y ∨
      (d = true ∧ (jsonStrings x).isSome = true ∧ (jsonStrings y).isSome = true)
  shown : ∀ x y r defTag, R x y →
    shownValue d (.Of x r) defTag = shownValue d (.Of y r) defTag

mutual
/-- Two live values are alike for the defaults-only rendering: they have the
same shape (leaf values of the same sort, structs with the same fields, maps
both nil or with the same keys in the same order), whatever their leaf values,
and their lists are nil or lists of strings, whatever their elements. -/
inductive Alike : GoValue → GoValue → Prop where
  | string (a b : Str) : Alike (.String a) (.String b)
  | int (a b : Int) : Alike (.Int a) (.Int b)
  | bool (a b : Bool) : Alike (.Bool a) (.Bool b)
  | nilPtr : Alike .NilPtr .NilPtr
  | other (a b : Str) : Alike (.Other a) (.Other b)
  | struct (f1 f2 : List (StructField × GoValue)) :
      AlikeFields f1 f2 → Alike (.Struct f1) (.Struct f2)
  | nilMap : Alike (.Map none) (.Map none)
  | map (e1 e2 : List (Str × GoValue)) :
      AlikeEntries e1 e2 → Alike (.Map (some e1)) (.Map (some e2))
  | slice (s1 s2 : Option (List Str)) :
      Alike (.Slice (s1.map (List.map .String))) (.Slice (s2.map (List.map .String)))
/-- The same fields in the same order, with values that are alike. -/
inductive AlikeFields :
    List (StructField × GoValue) → List (StructField × GoValue) → Prop where
  | nil : AlikeFields [] []
  | cons (f : StructField) (x y : GoValue) (r1 r2 : List (StructField × GoValue)) :
      Alike x y → AlikeFields r1 r2 → AlikeFields ((f, x) :: r1) ((f, y) :: r2)
/-- The same keys in the same order, with values that are alike. -/
inductive AlikeEntries : List (Str × GoValue) → List (Str × GoValue) → Prop where
  | nil : AlikeEntries [] []
  | cons (k : Str) (x y : GoValue) (r1 r2 : List (Str × GoValue)) :
      Alike x y → AlikeEntries r1 r2 → AlikeEntries ((k, x) :: r1) ((k, y) :: r2)
end

/-- The text holds no newline. -/
def noNewline (s : Str) : Bool := s.all (fun a => a != '\n')

/-- No annotation value of the tag holds a newline. -/
def cleanTag (tag : StructTag) : Bool := tag.all (fun p => noNewline p.2)

mutual
/-- No annotation in the field tree of the type holds a newline. -/
def GoType.clean : GoType → Bool
  | .Struct fs => cleanFields fs
  | _ => true
/-- No annotation of the field, nor of the fields nested in it, holds a newline. -/
def StructField.clean : StructField → Bool
  | .mk _ _ t tag => cleanTag tag && t.clean
/-- Every field of the list is clean. -/
def cleanFields : List StructField → Bool
  | [] => true
  | f :: r => f.clean && cleanFields r
end

mutual
/-- No newline anywhere in a live value: not in the annotations of its struct
types, not in the keys of its maps, not in the text `fmt` prints for any field
value or list element. -/
def GoValue.clean : GoValue → Bool
  | .Struct fs => cleanFieldValues fs
  | .Map (some es) => cleanEntries es
  | .Slice (some xs) => cleanElems xs
  | _ => true
/-- Every field is clean, with a clean value whose printed text holds no newline. -/
def cleanFieldValues : List (StructField × GoValue) → Bool
  | [] => true
  | (f, x) :: r => f.clean && noNewline (printValue x) && x.clean && cleanFieldValues r
/-- Every key is free of newlines and every value clean. -/
def cleanEntries : List (Str × GoValue) → Bool
  | [] => true
  | (k, x) :: r => noNewline k && x.clean && cleanEntries r
/-- The printed text of every element holds no newline. -/
def cleanElems : List GoValue → Bool
  | [] => true
  | x :: r => noNewline (printValue x) && cleanElems r
end

/-- The value `_getValue` reads from is clean. -/
def ctxClean (c : simpleYamlParser) : Bool :=
  match c.currVal with
  | some cv => cv.clean
  | none =>
    match c.originalValue with
    | some ov => ov.clean
    | none => true

/-- The text made of the given lines, each ended by a newline. -/
def unlines (ls : List Str) : Str := (ls.map (fun l => l ++ ['\n'])).flatten

/-- A line of a field rendered at depth `d`: it holds no newline, is not empty
and starts with `2·d` spaces. -/
def GoodLine (d : Nat) (l : Str) : Prop :=
  '\n' ∉ l ∧ l ≠ [] ∧ Repeat ' ' (2 * d) <+: l

/-- A state at depth 1 that reads from a root holding the map `Hosts`. -/
def hostsAtDepthOne : simpleYamlParser :=
  { indent := 1, originalValue := some (.Struct [(hostsField, hostsValue)]), currVal := none,
    defaultOnly := false }

/-- An element that `encoding/json` hands to a Go `string` without error: a
string, written as a JSON string, or a nil slice, nil map or nil pointer,
written as `null`. -/
def readsAsString : GoValue → Bool
  | .String _ => true
  | .Slice none => true
  | .Map none => true
  | .NilPtr => true
  | _ => false

/-- The item an element stands for: a string stands for itself, a nil value
for the empty string. -/
def itemText : GoValue → Str
  | .String s => s
  | _ => []

/-- A list field `Tags` of lists of strings, with the display name `tags` and
the comment `c`. -/
def nestedTags : StructField :=
  .mk "Tags".toList [] (.Slice (.Slice (.Basic .String)))
    [("yaml".toList, "tags".toList), ("comment".toList, "c".toList)]

/-- The string field `Addr` with the default `dflt` added. -/
def addrDflt : StructField :=
  .mk "Addr".toList [] (.Basic .String)
    [("yaml".toList, "addr".toList), ("default".toList, "dflt".toList)]

/-- A struct field `Peer` with the display name `peer`, whose one field is
`Addr` with the default `dflt`. -/
def peerDflt : StructField :=
  .mk "Peer".toList [] (.Struct [addrDflt]) [("yaml".toList, "peer".toList)]

theorem fieldLoop_state {rec : simpleYamlParser → StructField → Rendered}
    (hrec : Restores rec) (fs : List StructField) (str : Str) (c : simpleYamlParser)
    (out : Str) (c1 : simpleYamlParser) (h : fieldLoop rec fs str c = .ret (out, c1)) :
    c1 = c := by
  induction fs generalizing str c with
  | nil =>
    simp only [fieldLoop, Outcome.ret.injEq, Prod.mk.injEq] at h
    exact h.2.symm
  | cons f fs ih =>
    unfold fieldLoop at h
    cases hr : rec c f with
    | ret a =>
      obtain ⟨s, c2⟩ := a
      rw [hr] at h
      have h2 := hrec c f s c2 hr
      subst h2
      exact ih _ _ h
    | abort => rw [hr] at h; cases h
    | starved => rw [hr] at h; cases h

theorem structLoop_state {rec : simpleYamlParser → StructField → Rendered}
    (hrec : Restores rec) (name : Str) (fs : List StructField) (str : Str)
    (c : simpleYamlParser) (out : Str) (c1 : simpleYamlParser)
    (h : structLoop rec name fs str c = .ret (out, c1)) : c1 = c := by
  induction fs generalizing str c with
  | nil =>
    simp only [structLoop, Outcome.ret.injEq, Prod.mk.injEq] at h
    exact h.2.symm
  | cons f fs ih =>
    unfold structLoop at h
    cases hi : (_getValue c name).Interface with
    | none => rw [hi] at h; cases h
    | some x =>
      rw [hi] at h
      simp only at h
      cases hr : rec { c with currVal := some x } f with
      | ret a =>
        obtain ⟨s, c2⟩ := a
        rw [hr] at h
        have h2 := hrec _ f s c2 hr
        subst h2
        exact ih _ _ h
      | abort => rw [hr] at h; cases h
      | starved => rw [hr] at h; cases h

theorem mapLoop_state {rec : simpleYamlParser → StructField → Rendered}
    (hrec : Restores rec) (mapValue : GoValue) (keys : List Str) (str : Str)
    (c : simpleYamlParser) (out : Str) (c1 : simpleYamlParser)
    (h : mapLoop rec mapValue keys str c = .ret (out, c1)) : c1 = c := by
  induction keys generalizing str c with
  | nil =>
    simp only [mapLoop, Outcome.ret.injEq, Prod.mk.injEq] at h
    exact h.2.symm
  | cons key keys ih =>
    unfold mapLoop at h
    cases hi : (MapIndex mapValue key).Interface with
    | none => rw [hi] at h; cases h
    | some sv =>
      rw [hi] at h
      simp only at h
      cases hf : structFields sv with
      | none => rw [hf] at h; cases h
      | some fields =>
        rw [hf] at h
        simp only at h
        cases hr : fieldLoop rec fields
            (str ++ Repeat ' ' ((c.indent + 1) * 2) ++ key ++ ":\n".toList)
            { indent := c.indent + 1 + 1, originalValue := c.originalValue,
              currVal := some sv, defaultOnly := c.defaultOnly } with
        | ret a =>
          obtain ⟨s, c2⟩ := a
          rw [hr] at h
          have h2 := fieldLoop_state hrec _ _ _ _ _ hr
          subst h2
          exact ih _ _ h
        | abort => rw [hr] at h; cases h
        | starved => rw [hr] at h; cases h

theorem vToYaml_ptr (n : Nat) (c : simpleYamlParser) (v : StructField)
    (hk : v.Typ.Kind = .Ptr) : vToYaml (n + 1) c v = .abort := by
  simp [vToYaml, hk]

theorem vToYaml_struct (n : Nat) (c : simpleYamlParser) (v : StructField)
    (hk : v.Typ.Kind = .Struct) : vToYaml (n + 1) c v = caseStruct (vToYaml n) c v := by
  simp [vToYaml, hk]

theorem vToYaml_map (n : Nat) (c : simpleYamlParser) (v : StructField)
    (hk : v.Typ.Kind = .Map) : vToYaml (n + 1) c v = caseMap (vToYaml n) c v := by
  simp [vToYaml, hk]

theorem vToYaml_slice (n : Nat) (c : simpleYamlParser) (v : StructField)
    (hk : v.Typ.Kind = .Slice) : vToYaml (n + 1) c v = caseSlice c v := by
  simp [vToYaml, hk]

theorem vToYaml_primitive (n : Nat) (c : simpleYamlParser) (v : StructField)
    (hk : isPrimitiveKind v.Typ.Kind = true) : vToYaml (n + 1) c v = casePrimitive c v := by
  cases hk2 : v.Typ.Kind <;> simp [hk2, isPrimitiveKind] at hk <;> simp [vToYaml, hk2]

theorem vToYaml_skipped (n : Nat) (c : simpleYamlParser) (v : StructField)
    (hk : isSkippedKind v.Typ.Kind = true) : vToYaml (n + 1) c v = .ret ([], c) := by
  cases hk2 : v.Typ.Kind <;> simp [hk2, isSkippedKind] at hk <;> simp [vToYaml, hk2]

/-- Every kind falls in exactly one case of the `switch`. -/
theorem Kind.cases_switch (k : Kind) :
    k = .Ptr ∨ k = .Struct ∨ k = .Map ∨ k = .Slice ∨ isPrimitiveKind k = true ∨
      isSkippedKind k = true := by
  cases k <;> simp [isPrimitiveKind, isSkippedKind]

theorem caseStruct_state {rec : simpleYamlParser → StructField → Rendered}
    (hrec : Restores rec) (c : simpleYamlParser) (v : StructField) (s : Str)
    (c1 : simpleYamlParser) (h : caseStruct rec c v = .ret (s, c1)) : c1 = c := by
  unfold caseStruct at h
  simp only at h
  split at h
  · rename_i str c2 hl
    have := structLoop_state hrec _ _ _ _ _ _ hl
    subst this
    split at h <;> simp only [Outcome.ret.injEq, Prod.mk.injEq] at h <;> exact h.2.symm
  · cases h
  · cases h

theorem caseMap_state {rec : simpleYamlParser → StructField → Rendered}
    (hrec : Restores rec) (c : simpleYamlParser) (v : StructField) (s : Str)
    (c1 : simpleYamlParser) (h : caseMap rec c v = .ret (s, c1)) : c1 = c := by
  unfold caseMap at h
  simp only at h
  split at h
  · cases h
  · split at h
    · cases h
    · split at h
      · rename_i str c2 hl
        have := mapLoop_state hrec _ _ _ _ _ _ hl
        subst this
        split at h <;> simp only [Outcome.ret.injEq, Prod.mk.injEq] at h <;> exact h.2.symm
      · cases h
      · cases h

theorem caseSlice_state (c : simpleYamlParser) (v : StructField) (s : Str)
    (c1 : simpleYamlParser) (h : caseSlice c v = .ret (s, c1)) : c1 = c := by
  unfold caseSlice at h
  simp only at h
  split at h
  · cases h
  · split at h
    · cases h
    · simp only [Outcome.ret.injEq, Prod.mk.injEq] at h
      exact h.2.symm

theorem casePrimitive_state (c : simpleYamlParser) (v : StructField) (s : Str)
    (c1 : simpleYamlParser) (h : casePrimitive c v = .ret (s, c1)) : c1 = c := by
  unfold casePrimitive at h
  simp only [Outcome.ret.injEq, Prod.mk.injEq] at h
  exact h.2.symm

/-- Whenever `vToYaml` returns, the state is the one it was entered with. -/
theorem vToYaml_state (fuel : Nat) : Restores (vToYaml fuel) := by
  induction fuel with
  | zero => intro c f s c1 h; simp [vToYaml] at h
  | succ n ih =>
    intro c v s c1 h
    rcases Kind.cases_switch v.Typ.Kind with hk | hk | hk | hk | hk | hk
    · rw [vToYaml_ptr n c v hk] at h; cases h
    · rw [vToYaml_struct n c v hk] at h; exact caseStruct_state ih c v s c1 h
    · rw [vToYaml_map n c v hk] at h; exact caseMap_state ih c v s c1 h
    · rw [vToYaml_slice n c v hk] at h; exact caseSlice_state c v s c1 h
    · rw [vToYaml_primitive n c v hk] at h; exact casePrimitive_state c v s c1 h
    · rw [vToYaml_skipped n c v hk] at h
      simp only [Outcome.ret.injEq, Prod.mk.injEq] at h
      exact h.2.symm

/-! ## What the loops compute -/

/-- A field loop over a state-restoring renderer returns exactly when every
field renders from the entry state, and then appends the texts in order. -/
theorem fieldLoop_ret {rec : simpleYamlParser → StructField → Rendered}
    (hrec : Restores rec) (fs : List StructField) (str : Str) (c : simpleYamlParser)
    (out : Str) (c1 : simpleYamlParser) :
    fieldLoop rec fs str c = .ret (out, c1) ↔
      c1 = c ∧ ∃ texts, List.Forall₂ (fun f t => rec c f = .ret (t, c)) fs texts ∧
        out = str ++ texts.flatten := by
  induction fs generalizing str with
  | nil =>
    simp only [fieldLoop, Outcome.ret.injEq, Prod.mk.injEq, List.forall₂_nil_left_iff]
    constructor
    · rintro ⟨h1, h2⟩
      exact ⟨h2.symm, [], rfl, by simp [h1]⟩
    · rintro ⟨h1, texts, h2, h3⟩
      subst h2
      simp at h3
      exact ⟨h3.symm, h1.symm⟩
  | cons f fs ih =>
    unfold fieldLoop
    cases hr : rec c f with
    | ret a =>
      obtain ⟨s, c2⟩ := a
      have h2 := hrec c f s c2 hr
      subst h2
      simp only [ih, List.forall₂_cons_left_iff]
      constructor
      · rintro ⟨h1, texts, h2, h3⟩
        exact ⟨h1, s :: texts, ⟨s, texts, hr, h2, rfl⟩, by simp [h3]⟩
      · rintro ⟨h1, texts, ⟨t, ts, h2, h3, h4⟩, h5⟩
        rw [hr] at h2
        simp only [Outcome.ret.injEq, Prod.mk.injEq, and_true] at h2
        subst h2 h4
        exact ⟨h1, ts, h3, by simp [h5]⟩
    | abort =>
      simp only [List.forall₂_cons_left_iff, hr]
      constructor
      · intro h; cases h
      · rintro ⟨_, _, ⟨_, _, h, _⟩, _⟩; cases h
    | starved =>
      simp only [List.forall₂_cons_left_iff, hr]
      constructor
      · intro h; cases h
      · rintro ⟨_, _, ⟨_, _, h, _⟩, _⟩; cases h

/-- The struct loop, when the field resolves to `x`, returns exactly when every
field of the type renders with `x` as current substructure, and then appends
the texts in order. -/
theorem structLoop_ret {rec : simpleYamlParser → StructField → Rendered}
    (hrec : Restores rec) (name : Str) (c : simpleYamlParser) (x : GoValue)
    (hx : (_getValue c name).Interface = some x)
    (fs : List StructField) (str : Str) (out : Str) (c1 : simpleYamlParser) :
    structLoop rec name fs str c = .ret (out, c1) ↔
      c1 = c ∧ ∃ texts,
        List.Forall₂ (fun f t => rec { c with currVal := some x } f =
          .ret (t, { c with currVal := some x })) fs texts ∧
        out = str ++ texts.flatten := by
  induction fs generalizing str with
  | nil =>
    simp only [structLoop, Outcome.ret.injEq, Prod.mk.injEq, List.forall₂_nil_left_iff]
    constructor
    · rintro ⟨h1, h2⟩
      exact ⟨h2.symm, [], rfl, by simp [h1]⟩
    · rintro ⟨h1, texts, h2, h3⟩
      subst h2
      simp at h3
      exact ⟨h3.symm, h1.symm⟩
  | cons f fs ih =>
    unfold structLoop
    rw [hx]
    simp only
    cases hr : rec { c with currVal := some x } f with
    | ret a =>
      obtain ⟨s, c2⟩ := a
      have h2 := hrec _ f s c2 hr
      subst h2
      simp only [List.forall₂_cons_left_iff]
      rw [ih]
      constructor
      · rintro ⟨h1, texts, h2, h3⟩
        exact ⟨h1, s :: texts, ⟨s, texts, hr, h2, rfl⟩, by simp [h3]⟩
      · rintro ⟨h1, texts, ⟨t, ts, h2, h3, h4⟩, h5⟩
        rw [hr] at h2
        simp only [Outcome.ret.injEq, Prod.mk.injEq, and_true] at h2
        subst h2 h4
        exact ⟨h1, ts, h3, by simp [h5]⟩
    | abort =>
      simp only [List.forall₂_cons_left_iff, hr]
      constructor
      · intro h; cases h
      · rintro ⟨_, _, ⟨_, _, h, _⟩, _⟩; cases h
    | starved =>
      simp only [List.forall₂_cons_left_iff, hr]
      constructor
      · intro h; cases h
      · rintro ⟨_, _, ⟨_, _, h, _⟩, _⟩; cases h

/-- The map loop returns exactly when every key has a block, and then appends
the blocks in key order. -/
theorem mapLoop_ret {rec : simpleYamlParser → StructField → Rendered}
    (hrec : Restores rec) (mapValue : GoValue) (c : simpleYamlParser)
    (keys : List Str) (str : Str) (out : Str) (c1 : simpleYamlParser) :
    mapLoop rec mapValue keys str c = .ret (out, c1) ↔
      c1 = c ∧ ∃ blocks, List.Forall₂ (KeyBlock rec c mapValue) keys blocks ∧
        out = str ++ blocks.flatten := by
  induction keys generalizing str with
  | nil =>
    simp only [mapLoop, Outcome.ret.injEq, Prod.mk.injEq, List.forall₂_nil_left_iff]
    constructor
    · rintro ⟨h1, h2⟩
      exact ⟨h2.symm, [], rfl, by simp [h1]⟩
    · rintro ⟨h1, texts, h2, h3⟩
      subst h2
      simp at h3
      exact ⟨h3.symm, h1.symm⟩
  | cons key keys ih =>
    unfold mapLoop
    simp only [List.forall₂_cons_left_iff]
    cases hi : (MapIndex mapValue key).Interface with
    | none =>
      simp only [KeyBlock, hi]
      constructor
      · intro h; cases h
      · rintro ⟨_, _, ⟨_, _, ⟨_, _, _, h, _⟩, _⟩, _⟩; cases h
    | some sv =>
      simp only
      cases hf : structFields sv with
      | none =>
        simp only [KeyBlock, hi]
        constructor
        · intro h; cases h
        · rintro ⟨_, _, ⟨_, _, ⟨_, _, _, h, h2, _⟩, _⟩, _⟩
          cases h
          rw [hf] at h2
          cases h2
      | some fields =>
        simp only
        cases hr : fieldLoop rec fields
            (str ++ Repeat ' ' ((c.indent + 1) * 2) ++ key ++ ":\n".toList)
            { indent := c.indent + 1 + 1, originalValue := c.originalValue,
              currVal := some sv, defaultOnly := c.defaultOnly } with
        | ret a =>
          obtain ⟨s, c2⟩ := a
          obtain ⟨h2, texts, hall, hs⟩ := (fieldLoop_ret hrec _ _ _ _ _).1 hr
          subst h2
          simp only
          have hc : simpleYamlParser.mk (c.indent + 1 + 1 - 1 - 1) c.originalValue c.currVal
              c.defaultOnly = c := rfl
          rw [hc, ih]
          constructor
          · rintro ⟨h1, blocks, h2, h3⟩
            refine ⟨h1, _ :: blocks, ⟨_, blocks, ⟨sv, fields, texts, hi, hf, hall, rfl⟩, h2, rfl⟩, ?_⟩
            simp [h3, hs]
          · rintro ⟨h1, blocks, ⟨b, bs, ⟨sv2, fields2, texts2, h2, h3, h4, h5⟩, h6, h7⟩, h8⟩
            rw [hi] at h2
            cases h2
            rw [hf] at h3
            cases h3
            have h9 := (fieldLoop_ret hrec fields
              (str ++ Repeat ' ' ((c.indent + 1) * 2) ++ key ++ ":\n".toList) _ _ _).2
              ⟨rfl, texts2, h4, rfl⟩
            rw [hr] at h9
            simp only [Outcome.ret.injEq, Prod.mk.injEq, and_true] at h9
            subst h7
            refine ⟨h1, bs, h6, ?_⟩
            simp [h8, h9, h5]
        | abort =>
          simp only
          constructor
          · intro h; cases h
          · rintro ⟨_, _, ⟨_, _, ⟨sv2, fields2, texts2, h2, h3, h4, _⟩, _⟩, _⟩
            rw [hi] at h2
            cases h2
            rw [hf] at h3
            cases h3
            have h9 := (fieldLoop_ret hrec fields
              (str ++ Repeat ' ' ((c.indent + 1) * 2) ++ key ++ ":\n".toList) _ _ _).2
              ⟨rfl, texts2, h4, rfl⟩
            rw [hr] at h9
            cases h9
        | starved =>
          simp only
          constructor
          · intro h; cases h
          · rintro ⟨_, _, ⟨_, _, ⟨sv2, fields2, texts2, h2, h3, h4, _⟩, _⟩, _⟩
            rw [hi] at h2
            cases h2
            rw [hf] at h3
            cases h3
            have h9 := (fieldLoop_ret hrec fields
              (str ++ Repeat ' ' ((c.indent + 1) * 2) ++ key ++ ":\n".toList) _ _ _).2
              ⟨rfl, texts2, h4, rfl⟩
            rw [hr] at h9
            cases h9

theorem caseStruct_ret {rec : simpleYamlParser → StructField → Rendered}
    (hrec : Restores rec) (c : simpleYamlParser) (v : StructField) (x : GoValue)
    (hx : (_getValue c v.Name).Interface = some x) (out : Str) (c1 : simpleYamlParser) :
    caseStruct rec c v = .ret (out, c1) ↔
      c1 = c ∧ ∃ texts,
        List.Forall₂
          (fun f t =>
            rec { c with indent := c.indent + 1, currVal := some x } f =
              .ret (t, { c with indent := c.indent + 1, currVal := some x }))
          v.Typ.Fields texts ∧
        out = Repeat ' ' (c.indent * 2) ++ v.Tag.Get "yaml".toList ++ ":\n".toList ++
          texts.flatten ++ (if c.indent = 0 then "\n".toList else []) := by
  have hx2 : (_getValue { c with indent := c.indent + 1 } v.Name).Interface = some x := hx
  unfold caseStruct
  simp only
  cases hl : structLoop rec v.Name v.Typ.Fields
      (Repeat ' ' (c.indent * 2) ++ v.Tag.Get "yaml".toList ++ ":\n".toList)
      { c with indent := c.indent + 1 } with
  | ret a =>
    obtain ⟨s, c2⟩ := a
    obtain ⟨h2, texts, hall, hs⟩ := (structLoop_ret hrec _ _ x hx2 _ _ _ _).1 hl
    subst h2
    have hc : c.indent + 1 - 1 = c.indent := rfl
    simp only [hc, beq_iff_eq]
    constructor
    · intro h
      split at h <;> rename_i h0 <;>
        simp only [Outcome.ret.injEq, Prod.mk.injEq] at h <;>
        exact ⟨h.2.symm, texts, hall, by simp [← h.1, hs, h0]⟩
    · rintro ⟨h1, texts2, hall2, hs2⟩
      have h9 := (structLoop_ret hrec v.Name { c with indent := c.indent + 1 } x hx2
        v.Typ.Fields (Repeat ' ' (c.indent * 2) ++ v.Tag.Get "yaml".toList ++ ":\n".toList)
        _ _).2 ⟨rfl, texts2, hall2, rfl⟩
      rw [hl] at h9
      simp only [Outcome.ret.injEq, Prod.mk.injEq, and_true] at h9
      by_cases h0 : c.indent = 0
      · rw [if_pos h0, h1, hs2, h9, if_pos h0]
      · rw [if_neg h0, h1, hs2, h9, if_neg h0, List.append_nil]
  | abort =>
    simp only
    constructor
    · intro h; cases h
    · rintro ⟨_, texts2, hall2, _⟩
      have h9 := (structLoop_ret hrec v.Name { c with indent := c.indent + 1 } x hx2
        v.Typ.Fields (Repeat ' ' (c.indent * 2) ++ v.Tag.Get "yaml".toList ++ ":\n".toList)
        _ _).2 ⟨rfl, texts2, hall2, rfl⟩
      rw [hl] at h9
      cases h9
  | starved =>
    simp only
    constructor
    · intro h; cases h
    · rintro ⟨_, texts2, hall2, _⟩
      have h9 := (structLoop_ret hrec v.Name { c with indent := c.indent + 1 } x hx2
        v.Typ.Fields (Repeat ' ' (c.indent * 2) ++ v.Tag.Get "yaml".toList ++ ":\n".toList)
        _ _).2 ⟨rfl, texts2, hall2, rfl⟩
      rw [hl] at h9
      cases h9

theorem caseMap_ret {rec : simpleYamlParser → StructField → Rendered}
    (hrec : Restores rec) (c : simpleYamlParser) (v : StructField) (mapValue : GoValue)
    (hx : (_getValue c v.Name).Interface = some mapValue) (keys : List Str)
    (hk : MapKeys mapValue = some keys) (out : Str) (c1 : simpleYamlParser) :
    caseMap rec c v = .ret (out, c1) ↔
      c1 = c ∧ ∃ blocks, List.Forall₂ (KeyBlock rec c mapValue) keys blocks ∧
        out = Repeat ' ' (c.indent * 2) ++ v.Tag.Get "yaml".toList ++ ":\n".toList ++
          blocks.flatten ++ (if c.indent = 0 then "\n".toList else []) := by
  unfold caseMap
  simp only [hx, hk]
  cases hl : mapLoop rec mapValue keys
      (Repeat ' ' (c.indent * 2) ++ v.Tag.Get "yaml".toList ++ ":\n".toList) c with
  | ret a =>
    obtain ⟨s, c2⟩ := a
    obtain ⟨h2, blocks, hall, hs⟩ := (mapLoop_ret hrec _ _ _ _ _ _).1 hl
    subst h2
    simp only [beq_iff_eq]
    constructor
    · intro h
      split at h <;> rename_i h0 <;>
        simp only [Outcome.ret.injEq, Prod.mk.injEq] at h <;>
        exact ⟨h.2.symm, blocks, hall, by simp [← h.1, hs, h0]⟩
    · rintro ⟨h1, blocks2, hall2, hs2⟩
      have h9 := (mapLoop_ret hrec mapValue c2 keys
        (Repeat ' ' (c2.indent * 2) ++ v.Tag.Get "yaml".toList ++ ":\n".toList)
        _ _).2 ⟨rfl, blocks2, hall2, rfl⟩
      rw [hl] at h9
      simp only [Outcome.ret.injEq, Prod.mk.injEq, and_true] at h9
      by_cases h0 : c2.indent = 0
      · rw [if_pos h0, h1, hs2, h9, if_pos h0]
      · rw [if_neg h0, h1, hs2, h9, if_neg h0, List.append_nil]
  | abort =>
    simp only
    constructor
    · intro h; cases h
    · rintro ⟨_, blocks2, hall2, _⟩
      have h9 := (mapLoop_ret hrec mapValue c keys
        (Repeat ' ' (c.indent * 2) ++ v.Tag.Get "yaml".toList ++ ":\n".toList)
        _ _).2 ⟨rfl, blocks2, hall2, rfl⟩
      rw [hl] at h9
      cases h9
  | starved =>
    simp only
    constructor
    · intro h; cases h
    · rintro ⟨_, blocks2, hall2, _⟩
      have h9 := (mapLoop_ret hrec mapValue c keys
        (Repeat ' ' (c.indent * 2) ++ v.Tag.Get "yaml".toList ++ ":\n".toList)
        _ _).2 ⟨rfl, blocks2, hall2, rfl⟩
      rw [hl] at h9
      cases h9

/-! ## The recursion budget -/

theorem casePrimitive_eq (c : simpleYamlParser) (v : StructField) :
    casePrimitive c v =
      .ret (leafLine c.indent (v.Tag.Get "yaml".toList)
        (shownValue c.defaultOnly (_getValue c v.Name) (v.Tag.Get "default".toList))
        (v.Tag.Get "comment".toList) (v.Tag.Get "required".toList == "false".toList), c) := by
  unfold casePrimitive leafLine leafBase shownValue
  simp only [Outcome.ret.injEq, Prod.mk.injEq, and_true]
  rw [Nat.mul_comm]
  generalize v.Tag.Get "required".toList = req
  generalize v.Tag.Get "comment".toList = comment
  generalize v.Tag.Get "yaml".toList = name
  generalize (if (!c.defaultOnly && !Contains (Sprintf (_getValue c v.Name))
      "<invalid reflect.Value>".toList) = true then Sprintf (_getValue c v.Name)
      else v.Tag.Get "default".toList) = value
  generalize Repeat ' ' (2 * c.indent) = ind
  have hne : "true".toList ≠ "false".toList := by decide
  generalize "true".toList = T at hne ⊢
  generalize "false".toList = F at hne ⊢
  generalize " (optional)".toList = o1
  generalize " # (optional)".toList = o2
  generalize " # ".toList = hash
  generalize ": ".toList = colonSp
  generalize ":".toList = colon
  generalize "\n".toList = nl
  by_cases h1 : req = F
  · subst h1
    by_cases h2 : comment = [] <;> by_cases h3 : value = [] <;> simp [h2, h3]
  · by_cases h4 : req = T
    · subst h4
      by_cases h2 : comment = [] <;> by_cases h3 : value = [] <;> simp [h2, h3, hne]
    · by_cases h2 : comment = [] <;> by_cases h3 : value = [] <;> simp [h1, h2, h3, h4, hne]

/-! ## Trimming -/

theorem jsonElems_strings (es : List Str) :
    jsonElems (es.map .String) = some es := by
  induction es with
  | nil => rfl
  | cons e r ih => simp only [List.map_cons, jsonElems, jsonElem, ih]

theorem foldl_items (f : Str → Str) (items : List Str) (str : Str) :
    items.foldl (fun acc s => acc ++ f s) str = str ++ (items.map f).flatten := by
  induction items generalizing str with
  | nil => simp
  | cons a r ih => simp [ih]

/-- The slice case, once the field resolves and its elements convert to the
strings `ss`: the header, then one item line per item. -/
theorem caseSlice_eq (c : simpleYamlParser) (v : StructField) (sliceValue : GoValue)
    (ss : List Str) (hx : (_getValue c v.Name).Interface = some sliceValue)
    (hj : jsonStrings sliceValue = some ss) :
    caseSlice c v =
      .ret (headerLine c.indent (v.Tag.Get "yaml".toList) ++
        ((if ss.length == 0 || c.defaultOnly then Split ',' (v.Tag.Get "default".toList)
          else ss.map (fun e =>
            if v.Tag.Get "comment".toList == [] then e
            else e ++ " # ".toList ++ v.Tag.Get "comment".toList)).map
          (itemLine c.indent)).flatten, c) := by
  unfold caseSlice
  simp only [hx, hj]
  have h := foldl_items
    (fun s => Repeat ' ' ((c.indent + 1) * 2) ++ "- ".toList ++ TrimSpace s ++ "\n".toList)
    (if (ss.length == 0 || c.defaultOnly) = true then Split ',' (v.Tag.Get "default".toList)
      else ss.map (fun e =>
        if (v.Tag.Get "comment".toList == []) = true then e
        else e ++ " # ".toList ++ v.Tag.Get "comment".toList))
    (Repeat ' ' (c.indent * 2) ++ v.Tag.Get "yaml".toList ++ ":\n".toList)
  simp only [List.append_assoc] at h ⊢
  rw [h]
  have hi : (fun s => Repeat ' ' ((c.indent + 1) * 2) ++
      ("- ".toList ++ (TrimSpace s ++ "\n".toList))) = itemLine c.indent := by
    funext s
    simp only [itemLine, List.append_assoc, Nat.mul_comm 2 (c.indent + 1)]
  simp only [hi, headerLine, List.append_assoc, Nat.mul_comm 2 c.indent]
  rfl

/-! ## Splitting at commas -/

theorem Split_ne_nil (sep : Char) (s : Str) : Split sep s ≠ [] := by
  cases s with
  | nil => simp [Split]
  | cons a r =>
    unfold Split
    split
    · simp
    · split <;> simp

/-- Splitting yields one piece more than there are separators. -/
theorem Split_length (sep : Char) (s : Str) :
    (Split sep s).length = s.count sep + 1 := by
  induction s with
  | nil => simp [Split]
  | cons a r ih =>
    unfold Split
    by_cases h : a = sep
    · subst h
      simp [ih]
    · rw [if_neg h]
      have hne := Split_ne_nil sep r
      cases hs : Split sep r with
      | nil => exact absurd hs hne
      | cons x xs =>
        rw [hs] at ih
        have : (a == sep) = false := by simpa using h
        simp only [List.length_cons] at ih ⊢
        rw [List.count_cons, this]
        simpa using ih

/-- No piece holds a separator. -/
theorem Split_no_sep (sep : Char) (s : Str) : ∀ piece ∈ Split sep s, sep ∉ piece := by
  induction s with
  | nil => simp [Split]
  | cons a r ih =>
    unfold Split
    by_cases h : a = sep
    · rw [if_pos h]
      intro piece hp
      rcases List.mem_cons.1 hp with h1 | h1
      · subst h1; simp
      · exact ih piece h1
    · rw [if_neg h]
      cases hs : Split sep r with
      | nil => simp [Ne.symm h]
      | cons x xs =>
        rw [hs] at ih
        intro piece hp
        rcases List.mem_cons.1 hp with h1 | h1
        · subst h1
          have := ih x (List.mem_cons_self _ _)
          simp [Ne.symm h, this]
        · exact ih piece (List.mem_cons_of_mem _ h1)

/-- The pieces, put back together with the separator between them, are the text
that was split. -/
theorem Split_intercalate (sep : Char) (s : Str) :
    List.intercalate [sep] (Split sep s) = s := by
  induction s with
  | nil => simp [Split, List.intercalate]
  | cons a r ih =>
    unfold Split
    by_cases h : a = sep
    · subst h
      rw [if_pos rfl]
      have hne := Split_ne_nil a r
      cases hs : Split a r with
      | nil => exact absurd hs hne
      | cons x xs =>
        rw [hs] at ih
        simp only [List.intercalate, List.intersperse, List.flatten_cons, List.nil_append,
          List.singleton_append] at ih ⊢
        rw [ih]
    · rw [if_neg h]
      have hne := Split_ne_nil sep r
      cases hs : Split sep r with
      | nil => exact absurd hs hne
      | cons x xs =>
        rw [hs] at ih
        cases xs with
        | nil =>
          simp only [List.intercalate, List.intersperse, List.flatten_cons,
            List.flatten_nil, List.append_nil] at ih ⊢
          rw [ih]
        | cons y ys =>
          simp only [List.intercalate, List.intersperse, List.flatten_cons,
            List.cons_append] at ih ⊢
          rw [ih]

/-! ## Pointer fields -/

/-- C1 (as stated, refuted): the example struct annotated as the specification
writes it has no display names, so its keys are empty: in defaults-only mode,
and also with the live values `app` and `8080`, the text is `: app` and
`: 8080 # listen port`, not the two lines the specification shows. -/
theorem c1_example_as_annotated :
    (Parse 1 (newParser true) (specExample [] 0)).text =
        some ": app\n: 8080 # listen port".toList ∧
      (Parse 1 (newParser false) (specExample "app".toList 8080)).text =
        some ": app\n: 8080 # listen port".toList ∧
      ": app\n: 8080 # listen port".toList ≠ "name: app\nport: 8080 # listen port".toList := by
  decide

/-- C1 (amended): with the display names `name` and `port` declared, the example
struct renders in defaults-only mode to exactly the two lines `name: app` and
`port: 8080 # listen port`, whatever its live values and with any budget;
annotated as the specification writes it, it renders to the same lines with
empty keys. -/
theorem c1_example_with_display_names (n : Nat) (name : Str) (port : Int) :
    Parse (n + 1) (newParser true) (yamlExample name port) =
        .ret ("name: app\nport: 8080 # listen port".toList,
          { newParser true with originalValue := some (yamlExample name port) }) ∧
      Parse (n + 1) (newParser true) (specExample name port) =
        .ret (": app\n: 8080 # listen port".toList,
          { newParser true with originalValue := some (specExample name port) }) := by
  constructor <;> rfl

/-- A leaf field with a live value whose text does not carry the marker of the
zero `Value` shows that text when defaults-only is off. -/
theorem leaf_shows_live_value (n : Nat) (c : simpleYamlParser) (v : StructField)
    (x : GoValue) (ro : Bool) (hk : isPrimitiveKind v.Typ.Kind = true)
    (hlive : _getValue c v.Name = .Of x ro)
    (hmark : Contains (printValue x) "<invalid reflect.Value>".toList = false)
    (hmode : c.defaultOnly = false) :
    vToYaml (n + 1) c v =
      .ret (leafLine c.indent (v.Tag.Get "yaml".toList) (printValue x)
        (v.Tag.Get "comment".toList) (v.Tag.Get "required".toList == "false".toList), c) := by
  rw [vToYaml_primitive n c v hk, casePrimitive_eq, hlive]
  simp only [shownValue, Sprintf, hmark, hmode, Bool.not_false, Bool.and_self, if_true]

/-- A leaf field shows its declared default in defaults-only mode. -/
theorem leaf_shows_default (n : Nat) (c : simpleYamlParser) (v : StructField)
    (hk : isPrimitiveKind v.Typ.Kind = true) (hmode : c.defaultOnly = true) :
    vToYaml (n + 1) c v =
      .ret (leafLine c.indent (v.Tag.Get "yaml".toList) (v.Tag.Get "default".toList)
        (v.Tag.Get "comment".toList) (v.Tag.Get "required".toList == "false".toList), c) := by
  rw [vToYaml_primitive n c v hk, casePrimitive_eq]
  simp only [shownValue, hmode, Bool.not_true, Bool.false_and, Bool.false_eq_true, if_false]

/-- C3 (the code departs from the claim): a string field whose live value is the
text `<invalid reflect.Value>` is readable, yet with defaults-only off the line
shows the declared default `5` and not the live text. -/
theorem c3_marker_text_shows_default :
    (vToYaml 1
        { newParser false with
          originalValue :=
            some (.Struct [(bannerField, .String "<invalid reflect.Value>".toList)]) }
        bannerField).text = some "banner: 5\n".toList ∧
      (Parse 1 (newParser false)
        (.Struct [(bannerField, .String "<invalid reflect.Value>".toList)])).text =
        some "banner: 5".toList := by
  decide

/-- C4: a leaf field with a declared default `d` and no live value shows `d`, in
either mode and so also when defaults-only is off: its line is
`<indent><name>: d`, then the comment and the optional marker if any, then a
newline. -/
theorem c4_default_without_live_value (n : Nat) (c : simpleYamlParser) (v : StructField)
    (d : Str) (hk : isPrimitiveKind v.Typ.Kind = true)
    (hlive : _getValue c v.Name = .Invalid)
    (hd : v.Tag.Get "default".toList = d) (hne : d ≠ []) :
    vToYaml (n + 1) c v =
        .ret (leafLine c.indent (v.Tag.Get "yaml".toList) d (v.Tag.Get "comment".toList)
          (v.Tag.Get "required".toList == "false".toList), c) ∧
      Repeat ' ' (2 * c.indent) ++ v.Tag.Get "yaml".toList ++ ": ".toList ++ d <+:
        leafLine c.indent (v.Tag.Get "yaml".toList) d (v.Tag.Get "comment".toList)
          (v.Tag.Get "required".toList == "false".toList) := by
  constructor
  · rw [vToYaml_primitive n c v hk, casePrimitive_eq, hlive, hd]
    have : Contains (Sprintf .Invalid) "<invalid reflect.Value>".toList = true := by decide
    simp only [shownValue, this, Bool.not_true, Bool.and_false, Bool.false_eq_true, if_false]
  · unfold leafLine leafBase
    rw [if_neg hne]
    simp only [List.append_assoc, List.prefix_append_right_inj]
    exact List.prefix_append _ _

/-- C4 at the field `Port`, read from a struct value that has no such field. -/
theorem c4_default_without_live_value_witness :
    vToYaml 1 { newParser false with originalValue := some (.Struct []) } yamlPort =
        .ret ("port: 8080 # listen port\n".toList,
          { newParser false with originalValue := some (.Struct []) }) ∧
      "port: 8080".toList <+: "port: 8080 # listen port\n".toList :=
  c4_default_without_live_value 0 { newParser false with originalValue := some (.Struct []) }
    yamlPort "8080".toList rfl rfl rfl (by decide)

/-- C5: the line of a leaf field carries the marker `(optional)` exactly when the
`required` annotation is the text `false`: then the line up to the marker is
followed by ` (optional)` when there is a comment `c`, so that it ends with
` # c (optional)`, and by ` # (optional)` when there is none; with any other
`required` annotation, or none, the newline follows at once. -/
theorem c5_optional_marker (n : Nat) (c : simpleYamlParser) (v : StructField)
    (hk : isPrimitiveKind v.Typ.Kind = true) :
    (v.Tag.Get "required".toList = "false".toList → v.Tag.Get "comment".toList ≠ [] →
      vToYaml (n + 1) c v =
          .ret (leafBase c.indent (v.Tag.Get "yaml".toList)
            (shownValue c.defaultOnly (_getValue c v.Name) (v.Tag.Get "default".toList))
            (v.Tag.Get "comment".toList) ++ " (optional)\n".toList, c) ∧
        " # ".toList ++ v.Tag.Get "comment".toList ++ " (optional)\n".toList <:+
          leafBase c.indent (v.Tag.Get "yaml".toList)
            (shownValue c.defaultOnly (_getValue c v.Name) (v.Tag.Get "default".toList))
            (v.Tag.Get "comment".toList) ++ " (optional)\n".toList) ∧
    (v.Tag.Get "required".toList = "false".toList → v.Tag.Get "comment".toList = [] →
      vToYaml (n + 1) c v =
        .ret (leafBase c.indent (v.Tag.Get "yaml".toList)
          (shownValue c.defaultOnly (_getValue c v.Name) (v.Tag.Get "default".toList))
          [] ++ " # (optional)\n".toList, c)) ∧
    (v.Tag.Get "required".toList ≠ "false".toList →
      vToYaml (n + 1) c v =
        .ret (leafBase c.indent (v.Tag.Get "yaml".toList)
          (shownValue c.defaultOnly (_getValue c v.Name) (v.Tag.Get "default".toList))
          (v.Tag.Get "comment".toList) ++ "\n".toList, c)) := by
  rw [vToYaml_primitive n c v hk, casePrimitive_eq]
  refine ⟨fun h1 h2 => ⟨?_, ?_⟩, fun h1 h2 => ?_, fun h1 => ?_⟩
  · rw [h1]
    simp only [leafLine, beq_self_eq_true, if_true, if_neg h2, List.append_assoc]
    rfl
  · unfold leafBase
    rw [if_neg h2]
    simp only [List.append_assoc]
    exact ((List.suffix_append _ _).trans (List.suffix_append _ _)).trans
      (List.suffix_append _ _)
  · rw [h1, h2]
    simp only [leafLine, beq_self_eq_true, if_true, List.append_assoc]
    rfl
  · have : (v.Tag.Get "required".toList == "false".toList) = false := by
      simpa using h1
    rw [this]
    simp [leafLine]

/-- C5 at the optional field `Limit` with the comment `desc`. -/
theorem c5_optional_marker_witness :
    vToYaml 1 (newParser true) limitField =
        .ret ("limit: # desc (optional)\n".toList, newParser true) ∧
      " # desc (optional)\n".toList <:+ "limit: # desc (optional)\n".toList :=
  (c5_optional_marker 0 (newParser true) limitField rfl).1 rfl (by decide)

/-- C6 (as stated, refuted): a list field whose live elements are the integers
1 and 2, rendered with defaults-only off, does not yield a header and two item
lines: the elements do not convert to strings and the call aborts, as does
`Parse` on the struct holding the field. -/
theorem c6_integer_elements_abort :
    vToYaml 1
        { newParser false with
          originalValue :=
            some (.Struct [(tagsField (.Basic .Int), .Slice (some [.Int 1, .Int 2]))]) }
        (tagsField (.Basic .Int)) = .abort ∧
      Parse 1 (newParser false)
        (.Struct [(tagsField (.Basic .Int), .Slice (some [.Int 1, .Int 2]))]) = .abort :=
  ⟨rfl, rfl⟩

theorem jsonElem_eq (x : GoValue) :
    jsonElem x = if readsAsString x then some (itemText x) else none := by
  cases x with
  | Map es => cases es <;> rfl
  | Slice xs => cases xs <;> rfl
  | _ => rfl

theorem jsonElems_eq (xs : List GoValue) :
    jsonElems xs = if xs.all readsAsString then some (xs.map itemText) else none := by
  induction xs with
  | nil => rfl
  | cons x r ih =>
    rw [jsonElems, jsonElem_eq, ih]
    cases hx : readsAsString x <;> cases hr : r.all readsAsString <;>
      simp [List.all_cons, hx, hr]

/-- C6 (amended): a list field whose live value is a non-empty list `e1..en`,
rendered with defaults-only off at depth `d`.  When every `ei` is a string or a
nil slice, nil map or nil pointer (which stands for the empty string), the text
is the header `<2d spaces><name>:` and then exactly `n` item lines, the `i`-th
being `<2(d+1) spaces>- ` followed by the trimmed `ei` when no comment is
declared and by the trimmed text `ei # c` when a comment `c` is declared.  When
some `ei` is anything else (an integer, a boolean, a floating-point number, a
struct, a map or slice that is not nil) the call aborts. -/
theorem c6_live_list_items (n : Nat) (c : simpleYamlParser) (v : StructField)
    (es : List GoValue) (hk : v.Typ.Kind = .Slice)
    (hlive : (_getValue c v.Name).Interface = some (.Slice (some es)))
    (hne : es ≠ []) (hmode : c.defaultOnly = false) :
    vToYaml (n + 1) c v =
      if es.all readsAsString then
        .ret (headerLine c.indent (v.Tag.Get "yaml".toList) ++
          (es.map (fun e =>
            itemLine c.indent
              (if v.Tag.Get "comment".toList = [] then itemText e
               else itemText e ++ " # ".toList ++ v.Tag.Get "comment".toList))).flatten, c)
      else .abort := by
  rw [vToYaml_slice n c v hk]
  cases hall : es.all readsAsString with
  | false =>
    have hj : jsonStrings (.Slice (some es)) = none := by
      simp only [jsonStrings, jsonElems_eq, hall, Bool.false_eq_true, if_false]
    simp only [caseSlice, hlive, hj, Bool.false_eq_true, if_false]
  | true =>
    have hj : jsonStrings (.Slice (some es)) = some (es.map itemText) := by
      simp only [jsonStrings, jsonElems_eq, hall, if_true]
    rw [caseSlice_eq c v _ _ hlive hj]
    have h0 : ((es.map itemText).length == 0) = false := by
      cases es with
      | nil => exact absurd rfl hne
      | cons a r => rfl
    simp only [h0, hmode, Bool.or_self, Bool.false_eq_true, if_false, List.map_map,
      beq_iff_eq, if_true]
    rfl

/-- C6 at the live list `[a, b]` without a comment, at a live list of two nil
slices with the comment `c`, and at a live list of two booleans. -/
theorem c6_live_list_items_witness :
    vToYaml 1
        { newParser false with
          originalValue := some (.Struct
            [(tagsField (.Basic .String), .Slice (some [.String "a".toList, .String "b".toList]))]) }
        (tagsField (.Basic .String)) =
        .ret ("tags:\n  - a\n  - b\n".toList,
          { newParser false with
            originalValue := some (.Struct
              [(tagsField (.Basic .String),
                .Slice (some [.String "a".toList, .String "b".toList]))]) }) ∧
    vToYaml 1
        { newParser false with
          originalValue := some (.Struct
            [(nestedTags, .Slice (some [.Slice none, .Slice none]))]) }
        nestedTags =
        .ret ("tags:\n  - # c\n  - # c\n".toList,
          { newParser false with
            originalValue := some (.Struct
              [(nestedTags, .Slice (some [.Slice none, .Slice none]))]) }) ∧
    vToYaml 1
        { newParser false with
          originalValue := some (.Struct
            [(tagsField (.Basic .Bool), .Slice (some [.Bool true, .Bool false]))]) }
        (tagsField (.Basic .Bool)) = .abort :=
  ⟨c6_live_list_items 0 _ (tagsField (.Basic .String)) [.String "a".toList, .String "b".toList]
      rfl rfl (List.cons_ne_nil _ _) rfl,
    c6_live_list_items 0 _ nestedTags [.Slice none, .Slice none] rfl rfl
      (List.cons_ne_nil _ _) rfl,
    c6_live_list_items 0 _ (tagsField (.Basic .Bool)) [.Bool true, .Bool false] rfl rfl
      (List.cons_ne_nil _ _) rfl⟩

/-- C7 (as stated, refuted): in defaults-only mode a list field whose live value
holds the integer 1 does not yield the item lines of its default `a, b ,c`: the
live elements are converted before the mode is looked at, and the call aborts,
as does `Parse` on the struct holding the field. -/
theorem c7_defaults_only_integer_elements_abort :
    vToYaml 1
        { newParser true with
          originalValue := some (.Struct [(tagsField (.Basic .Int), .Slice (some [.Int 1]))]) }
        (tagsField (.Basic .Int)) = .abort ∧
      Parse 1 (newParser true)
        (.Struct [(tagsField (.Basic .Int), .Slice (some [.Int 1]))]) = .abort :=
  ⟨rfl, rfl⟩

/-- C7 (amended): for a list field whose live value is a nil slice or a slice of
strings `live`, when `live` is empty or defaults-only mode is on, the item lines
are those of the comma-separated pieces of the declared default, in order, each
trimmed and without comment; the pieces hold no comma, give the default back
when joined with commas, and are one more than the commas of the default. -/
theorem c7_items_from_default (n : Nat) (c : simpleYamlParser) (v : StructField)
    (live : Option (List Str)) (hk : v.Typ.Kind = .Slice)
    (hlive : (_getValue c v.Name).Interface =
      some (.Slice (live.map (List.map .String))))
    (hcase : live.getD [] = [] ∨ c.defaultOnly = true) :
    vToYaml (n + 1) c v =
        .ret (headerLine c.indent (v.Tag.Get "yaml".toList) ++
          ((Split ',' (v.Tag.Get "default".toList)).map (itemLine c.indent)).flatten, c) ∧
      (∀ piece ∈ Split ',' (v.Tag.Get "default".toList), ',' ∉ piece) ∧
      List.intercalate [','] (Split ',' (v.Tag.Get "default".toList)) =
        v.Tag.Get "default".toList ∧
      (Split ',' (v.Tag.Get "default".toList)).length =
        (v.Tag.Get "default".toList).count ',' + 1 := by
  refine ⟨?_, Split_no_sep _ _, Split_intercalate _ _, Split_length _ _⟩
  have hj : jsonStrings (.Slice (live.map (List.map .String))) = some (live.getD []) := by
    cases live with
    | none => rfl
    | some es => simp only [Option.map_some', jsonStrings, Option.getD_some]; exact jsonElems_strings es
  rw [vToYaml_slice n c v hk, caseSlice_eq c v _ _ hlive hj]
  have h0 : ((live.getD []).length == 0 || c.defaultOnly) = true := by
    rcases hcase with h | h
    · rw [h]; rfl
    · rw [h]; simp
  rw [if_pos h0]

/-- C7 at the default `a, b ,c` with a nil live slice. -/
theorem c7_items_from_default_witness :
    vToYaml 1
        { newParser false with
          originalValue := some (.Struct [(tagsField (.Basic .String), .Slice none)]) }
        (tagsField (.Basic .String)) =
        .ret ("tags:\n  - a\n  - b\n  - c\n".toList,
          { newParser false with
            originalValue := some (.Struct [(tagsField (.Basic .String), .Slice none)]) }) ∧
      (∀ piece ∈ ["a".toList, " b ".toList, "c".toList], ',' ∉ piece) ∧
      List.intercalate [','] ["a".toList, " b ".toList, "c".toList] = "a, b ,c".toList ∧
      ["a".toList, " b ".toList, "c".toList].length = ("a, b ,c".toList).count ',' + 1 :=
  c7_items_from_default 0 _ (tagsField (.Basic .String)) none rfl rfl (Or.inl rfl)

/-- C8 (as stated, refuted): a keyed collection rendered at depth 0 is not just
the header and the key blocks: a blank line follows the last block. -/
theorem c8_blank_line_after_top_level_map :
    (vToYaml 2 { newParser false with originalValue := some (.Struct [(hostsField, hostsValue)]) }
        hostsField).text =
        some "hosts:\n  x:\n    addr: 1\n  y:\n    addr: 2\n\n".toList ∧
      "hosts:\n  x:\n    addr: 1\n  y:\n    addr: 2\n\n".toList ≠
        "hosts:\n  x:\n    addr: 1\n  y:\n    addr: 2\n".toList := by
  decide

/-- C8 (amended): a keyed-collection field that resolves to a map with the keys
`k1..kn`, in the order the map yields them, returns exactly when every key has a
block; the text is then the header `<2d spaces><name>:`, the blocks in key
order, and at depth 0 one empty line.  The block of a key is the line
`<2(d+1) spaces><key>:` followed by the texts, in declaration order, of the
fields of the key's struct value, each rendered at depth `d+2` with that struct
value as current substructure. -/
theorem c8_keyed_collection_layout (n : Nat) (c : simpleYamlParser) (v : StructField)
    (mapValue : GoValue) (keys : List Str) (out : Str) (c1 : simpleYamlParser)
    (hk : v.Typ.Kind = .Map)
    (hlive : (_getValue c v.Name).Interface = some mapValue)
    (hkeys : MapKeys mapValue = some keys) :
    vToYaml (n + 1) c v = .ret (out, c1) ↔
      c1 = c ∧ ∃ blocks, List.Forall₂ (KeyBlock (vToYaml n) c mapValue) keys blocks ∧
        out = headerLine c.indent (v.Tag.Get "yaml".toList) ++ blocks.flatten ++
          (if c.indent = 0 then "\n".toList else []) := by
  rw [vToYaml_map n c v hk, caseMap_ret (vToYaml_state n) c v mapValue hlive keys hkeys]
  simp only [headerLine, List.append_assoc, Nat.mul_comm 2 c.indent]

/-- C8 at the map `Hosts` with the keys `x` and `y`, rendered at depth 0. -/
theorem c8_keyed_collection_layout_witness :
    { newParser false with originalValue := some (.Struct [(hostsField, hostsValue)]) } =
        { newParser false with originalValue := some (.Struct [(hostsField, hostsValue)]) } ∧
      ∃ blocks,
        List.Forall₂
          (KeyBlock (vToYaml 1)
            { newParser false with originalValue := some (.Struct [(hostsField, hostsValue)]) }
            hostsValue)
          ["x".toList, "y".toList] blocks ∧
        "hosts:\n  x:\n    addr: 1\n  y:\n    addr: 2\n\n".toList =
          headerLine 0 "hosts".toList ++ blocks.flatten ++ "\n".toList :=
  (c8_keyed_collection_layout 1
    { newParser false with originalValue := some (.Struct [(hostsField, hostsValue)]) }
    hostsField hostsValue ["x".toList, "y".toList] _ _ rfl rfl rfl).1 rfl

/-- With defaults-only off, a struct field `S` that resolves to the struct
value `inst` returns exactly when each of its fields has a text, and its text is
the header, those texts in declaration order, and at depth 0 one empty line.
The text of a leaf field `F` of `S` is its line one level deeper, showing what
`shownValue` makes of the value of `F` looked up in `inst`: its text, or the
default when `inst` has no such field or the text carries the marker of the
zero `Value`.  Any other field of `S` is rendered with `inst` as current
substructure.  A leaf field rendered while no substructure is set is looked up
in the original value. -/
theorem struct_fields_resolve_in_own_struct (n : Nat) (c : simpleYamlParser) (S : StructField)
    (inst : GoValue) (out : Str) (c1 : simpleYamlParser) (hk : S.Typ.Kind = .Struct)
    (hinst : (_getValue c S.Name).Interface = some inst) (hmode : c.defaultOnly = false) :
    (vToYaml (n + 2) c S = .ret (out, c1) ↔
      c1 = c ∧ ∃ texts,
        List.Forall₂
          (fun F t =>
            (isPrimitiveKind F.Typ.Kind = true →
              t = leafLine (c.indent + 1) (F.Tag.Get "yaml".toList)
                (shownValue false ((FieldByName inst F.Name).getD .Invalid)
                  (F.Tag.Get "default".toList))
                (F.Tag.Get "comment".toList)
                (F.Tag.Get "required".toList == "false".toList)) ∧
            (isPrimitiveKind F.Typ.Kind = false →
              vToYaml (n + 1) { c with indent := c.indent + 1, currVal := some inst } F =
                .ret (t, { c with indent := c.indent + 1, currVal := some inst })))
          S.Typ.Fields texts ∧
        out = headerLine c.indent (S.Tag.Get "yaml".toList) ++ texts.flatten ++
          (if c.indent = 0 then "\n".toList else [])) ∧
    (∀ (F : StructField) (root : GoValue), isPrimitiveKind F.Typ.Kind = true →
      c.currVal = none → c.originalValue = some root →
      vToYaml (n + 1) c F =
        .ret (leafLine c.indent (F.Tag.Get "yaml".toList)
          (shownValue false ((FieldByName root F.Name).getD .Invalid)
            (F.Tag.Get "default".toList))
          (F.Tag.Get "comment".toList)
          (F.Tag.Get "required".toList == "false".toList), c)) := by
  constructor
  · rw [vToYaml_struct (n + 1) c S hk,
      caseStruct_ret (vToYaml_state (n + 1)) c S inst hinst]
    have hR : (fun (F : StructField) (t : Str) =>
        vToYaml (n + 1) { c with indent := c.indent + 1, currVal := some inst } F =
          .ret (t, { c with indent := c.indent + 1, currVal := some inst })) =
        (fun F t =>
          (isPrimitiveKind F.Typ.Kind = true →
            t = leafLine (c.indent + 1) (F.Tag.Get "yaml".toList)
              (shownValue false ((FieldByName inst F.Name).getD .Invalid)
                (F.Tag.Get "default".toList))
              (F.Tag.Get "comment".toList)
              (F.Tag.Get "required".toList == "false".toList)) ∧
          (isPrimitiveKind F.Typ.Kind = false →
            vToYaml (n + 1) { c with indent := c.indent + 1, currVal := some inst } F =
              .ret (t, { c with indent := c.indent + 1, currVal := some inst }))) := by
      funext F t
      apply propext
      cases hp : isPrimitiveKind F.Typ.Kind with
      | true =>
        rw [vToYaml_primitive n _ F hp, casePrimitive_eq]
        simp only [Outcome.ret.injEq, Prod.mk.injEq, and_true, hmode, _getValue,
          true_implies, Bool.true_eq_false, false_implies]
        exact eq_comm
      | false => simp
    rw [hR]
    simp only [headerLine, List.append_assoc, Nat.mul_comm 2 c.indent]
  · intro F root hp hcur horig
    rw [vToYaml_primitive n c F hp, casePrimitive_eq]
    simp only [_getValue, hcur, horig, hmode]

/-- C9 (the code departs from the claim): a root with its own `Addr`, set to
`outer`, beside a nested `Peer`.  When the `Addr` of `Peer` is `inner`, the line
inside `Peer` shows `inner`: the field is resolved in the instance of `Peer`,
not in the root.  When the `Addr` of `Peer` is the readable text
`<invalid reflect.Value>`, with defaults-only off, the line inside `Peer` shows
the declared default `dflt` and not the live value of `Addr` in `Peer`. -/
theorem c9_nested_marker_text_shows_default :
    (Parse 2 (newParser false)
        (.Struct [(addrDflt, .String "outer".toList),
          (peerDflt, .Struct [(addrDflt, .String "inner".toList)])])).text =
        some "addr: outer\npeer:\n  addr: inner".toList ∧
      (Parse 2 (newParser false)
        (.Struct [(addrDflt, .String "outer".toList),
          (peerDflt, .Struct [(addrDflt, .String "<invalid reflect.Value>".toList)])])).text =
        some "addr: outer\npeer:\n  addr: dflt".toList ∧
      (vToYaml 1
        { newParser false with
          indent := 1
          originalValue := some (.Struct [(addrDflt, .String "outer".toList),
            (peerDflt, .Struct [(addrDflt, .String "<invalid reflect.Value>".toList)])])
          currVal := some (.Struct [(addrDflt, .String "<invalid reflect.Value>".toList)]) }
        addrDflt).text = some "  addr: dflt\n".toList := by
  decide

theorem forall2_mem_left {α β : Type} {R : α → β → Prop} {l1 : List α} {l2 : List β}
    (h : List.Forall₂ R l1 l2) (a : α) (ha : a ∈ l1) : ∃ b, b ∈ l2 ∧ R a b := by
  induction h with
  | nil => cases ha
  | cons hab _ ih =>
    rcases List.mem_cons.1 ha with h1 | h1
    · subst h1
      exact ⟨_, List.mem_cons_self _ _, hab⟩
    · obtain ⟨b, hb, hr⟩ := ih h1
      exact ⟨b, List.mem_cons_of_mem _ hb, hr⟩

/-- C20: a list field that renders has at least one item line after its header,
in either mode; with an empty live value and no declared default there is
exactly one, made of the indentation, `- ` and an empty item. -/
theorem c20_list_has_an_item (n : Nat) (c : simpleYamlParser) (v : StructField)
    (hk : v.Typ.Kind = .Slice) :
    (∀ t c1, vToYaml (n + 1) c v = .ret (t, c1) →
      ∃ items, items ≠ [] ∧
        t = headerLine c.indent (v.Tag.Get "yaml".toList) ++
          (items.map (itemLine c.indent)).flatten) ∧
    (∀ sliceValue, (_getValue c v.Name).Interface = some sliceValue →
      jsonStrings sliceValue = some [] → v.Tag.Get "default".toList = [] →
      vToYaml (n + 1) c v =
        .ret (headerLine c.indent (v.Tag.Get "yaml".toList) ++
          (Repeat ' ' (2 * (c.indent + 1)) ++ "- ".toList ++ "\n".toList), c)) := by
  constructor
  · intro t c1 h
    rw [vToYaml_slice n c v hk] at h
    cases hx : (_getValue c v.Name).Interface with
    | none => simp only [caseSlice, hx] at h; cases h
    | some sliceValue =>
      cases hj : jsonStrings sliceValue with
      | none => simp only [caseSlice, hx, hj] at h; cases h
      | some ss =>
        rw [caseSlice_eq c v sliceValue ss hx hj] at h
        simp only [Outcome.ret.injEq, Prod.mk.injEq] at h
        refine ⟨_, ?_, h.1.symm⟩
        split
        · exact Split_ne_nil _ _
        · rename_i h0
          cases ss with
          | nil => simp at h0
          | cons a r => simp
  · intro sliceValue hx hj hd
    rw [vToYaml_slice n c v hk, caseSlice_eq c v sliceValue [] hx hj, hd]
    have h0 : ((([] : List Str).length == 0) || c.defaultOnly) = true := rfl
    rw [if_pos h0]
    simp only [Split, List.map, List.flatten, itemLine, TrimSpace, List.dropWhile,
      List.reverse_nil, List.append_nil]

/-- C20 at the list field `Tags` without default, read from a nil slice. -/
theorem c20_list_has_an_item_witness :
    vToYaml 1
        { newParser false with
          originalValue := some (.Struct
            [(.mk "Tags".toList [] (.Slice (.Basic .String)) [("yaml".toList, "tags".toList)],
              .Slice none)]) }
        (.mk "Tags".toList [] (.Slice (.Basic .String)) [("yaml".toList, "tags".toList)]) =
      .ret ("tags:\n  - \n".toList,
        { newParser false with
          originalValue := some (.Struct
            [(.mk "Tags".toList [] (.Slice (.Basic .String)) [("yaml".toList, "tags".toList)],
              .Slice none)]) }) :=
  (c20_list_has_an_item 0 _
    (.mk "Tags".toList [] (.Slice (.Basic .String)) [("yaml".toList, "tags".toList)]) rfl).2
    (.Slice none) rfl rfl rfl

/-- A string leaf field whose live value is the empty string shows no value when
defaults-only is off, whatever its declared default. -/
theorem leaf_empty_live_string (n : Nat) (c : simpleYamlParser) (v : StructField) (ro : Bool)
    (hk : isPrimitiveKind v.Typ.Kind = true)
    (hlive : _getValue c v.Name = .Of (.String []) ro) (hmode : c.defaultOnly = false) :
    vToYaml (n + 1) c v =
      .ret (leafLine c.indent (v.Tag.Get "yaml".toList) [] (v.Tag.Get "comment".toList)
        (v.Tag.Get "required".toList == "false".toList), c) :=
  leaf_shows_live_value n c v (.String []) ro hk hlive (by decide) hmode

/-- C19 (the code departs from the claim): with defaults-only off, the empty live
string of `Note` shadows the default `none`, the line being `note:`; but the
readable live string `see <invalid reflect.Value> in logs` does not: the line
shows the default, though the mode is not defaults-only and the value is
readable. -/
theorem c19_default_used_for_readable_value :
    (vToYaml 1 { newParser false with originalValue := some (.Struct [(noteField, .String [])]) }
        noteField).text = some "note:\n".toList ∧
      (vToYaml 1
        { newParser false with
          originalValue := some (.Struct
            [(noteField, .String "see <invalid reflect.Value> in logs".toList)]) }
        noteField).text = some "note: none\n".toList := by
  decide

/-- C17: whenever `vToYaml` returns, `indent` and `currVal` are what they were on
entry; so `Parse` renders every root field from one and the same state, the
struct case renders every field of the nested structure one level deeper with
the value of that structure as current substructure, and `Parse` leaves
`indent` and `currVal` as it found them: 0 and unset for a renderer made by the
composite literal. -/
theorem c17_state_restored :
    (∀ n c v s c1, vToYaml n c v = .ret (s, c1) →
      c1.indent = c.indent ∧ c1.currVal = c.currVal) ∧
    (∀ n p fs s p1, Parse n p (.Struct fs) = .ret (s, p1) →
      ∀ f ∈ fs.map Prod.fst, ∃ t,
        vToYaml n { p with originalValue := some (.Struct fs) } f =
          .ret (t, { p with originalValue := some (.Struct fs) })) ∧
    (∀ n c S inst s c1, S.Typ.Kind = .Struct →
      (_getValue c S.Name).Interface = some inst →
      vToYaml (n + 1) c S = .ret (s, c1) →
      ∀ F ∈ S.Typ.Fields, ∃ t,
        vToYaml n { c with indent := c.indent + 1, currVal := some inst } F =
          .ret (t, { c with indent := c.indent + 1, currVal := some inst })) ∧
    (∀ n p v s p1, Parse n p v = .ret (s, p1) →
      p1.indent = p.indent ∧ p1.currVal = p.currVal) ∧
    (∀ n d v s p1, Parse n (newParser d) v = .ret (s, p1) →
      p1.indent = 0 ∧ p1.currVal = none) := by
  have hparse : ∀ n p v s p1, Parse n p v = .ret (s, p1) →
      p1 = { p with originalValue := some v } := by
    intro n p v s p1 h
    unfold Parse at h
    simp only at h
    split at h
    · cases h
    · split at h
      · rename_i sb p2 hl
        have := fieldLoop_state (vToYaml_state n) _ _ _ _ _ hl
        simp only [Outcome.ret.injEq, Prod.mk.injEq] at h
        rw [← h.2, this]
      · cases h
      · cases h
  refine ⟨?_, ?_, ?_, ?_, ?_⟩
  · intro n c v s c1 h
    have := vToYaml_state n c v s c1 h
    subst this
    exact ⟨rfl, rfl⟩
  · intro n p fs s p1 h f hf
    unfold Parse at h
    simp only [structFields] at h
    split at h
    · rename_i sb p2 hl
      obtain ⟨_, texts, hall, _⟩ := (fieldLoop_ret (vToYaml_state n) _ _ _ _ _).1 hl
      obtain ⟨t, _, ht⟩ := forall2_mem_left hall f hf
      exact ⟨t, ht⟩
    · cases h
    · cases h
  · intro n c S inst s c1 hk hinst h F hF
    rw [vToYaml_struct n c S hk] at h
    obtain ⟨_, texts, hall, _⟩ := (caseStruct_ret (vToYaml_state n) c S inst hinst s c1).1 h
    obtain ⟨t, _, ht⟩ := forall2_mem_left hall F hF
    exact ⟨t, ht⟩
  · intro n p v s p1 h
    rw [hparse n p v s p1 h]
    exact ⟨rfl, rfl⟩
  · intro n d v s p1 h
    rw [hparse n (newParser d) v s p1 h]
    exact ⟨rfl, rfl⟩

/-- C17 at the root `peerRoot`, rendered by a renderer fresh from the composite
literal. -/
theorem c17_state_restored_witness :
    Parse 2 (newParser false) peerRoot =
        .ret ("addr: outer\npeer:\n  addr: inner".toList,
          { newParser false with originalValue := some peerRoot }) ∧
      (({ newParser false with originalValue := some peerRoot } : simpleYamlParser).indent = 0 ∧
        ({ newParser false with originalValue := some peerRoot } : simpleYamlParser).currVal =
          none) :=
  ⟨rfl, c17_state_restored.2.2.2.2 2 false peerRoot _ _ rfl⟩

/-- C16: `GenConfig` returns exactly when the defaults-only `Parse` of the value
returns; the file named by `SampleFileName` then holds exactly that text,
whether or not a file of that name was there before, and every file of another
name is as it was. -/
theorem c16_sample_file_written (n : Nat) (name : Str) (fs : FileSystem) (cfg : GoValue) :
    (∀ fs1, GenConfig n name fs cfg = (fs1, .ret ()) →
      ∃ t p, Parse n (newParser true) cfg = .ret (t, p) ∧ fs1 name = some t ∧
        ∀ other, other ≠ name → fs1 other = fs other) ∧
    (∀ t p, Parse n (newParser true) cfg = .ret (t, p) →
      (GenConfig n name fs cfg).2 = .ret () ∧ (GenConfig n name fs cfg).1 name = some t) := by
  constructor
  · intro fs1 h
    unfold GenConfig at h
    simp only at h
    split at h
    · rename_i t p hp
      simp only [Prod.mk.injEq, and_true] at h
      subst h
      refine ⟨t, p, hp, ?_, ?_⟩
      · simp [WriteString, Create]
      · intro other ho
        by_cases hs : Stat fs name = true
        · simp only [WriteString, Create, Remove, hs, if_true, if_neg ho]
        · simp only [WriteString, Create, hs, if_neg ho]
          rfl
    · simp at h
    · simp at h
  · intro t p hp
    unfold GenConfig
    simp only [hp]
    simp [WriteString, Create]

/-- C16 at a file system that holds an older sample file and a file
`config.yaml`. -/
theorem c16_sample_file_written_witness :
    ∃ t p, Parse 1 (newParser true) (yamlExample [] 0) = .ret (t, p) ∧
      (GenConfig 1 SampleFileName oldFiles (yamlExample [] 0)).1 SampleFileName = some t ∧
      ∀ other, other ≠ SampleFileName →
        (GenConfig 1 SampleFileName oldFiles (yamlExample [] 0)).1 other = oldFiles other :=
  (c16_sample_file_written 1 SampleFileName oldFiles (yamlExample [] 0)).1 _ rfl

/-- C12 (the code departs from the claim): a list field whose live value cannot be
read, here because the field is unexported, aborts `Parse` instead of being
rendered from its default; so do a list, a nested structure and a keyed
collection that do not resolve on the current context. -/
theorem c12_unreadable_composite_aborts :
    Parse 1 (newParser false)
        (.Struct [(hiddenTags, .Slice none), (yamlName, .String "app".toList)]) = .abort ∧
      vToYaml 1 { newParser false with originalValue := some (.Struct []) }
        (tagsField (.Basic .String)) = .abort ∧
      vToYaml 2 { newParser false with originalValue := some (.Struct []) } peerField =
        .abort ∧
      vToYaml 2 { newParser false with originalValue := some (.Struct []) } hostsField =
        .abort :=
  ⟨rfl, rfl, rfl, rfl⟩

/-- C13 (as stated, refuted): the same map entries yielded in another order give
another text, and Go leaves the order in which a map yields its keys open from
one run to the next. -/
theorem c13_yield_order_changes_text :
    (Parse 2 (newParser false) (.Struct [(hostsField, hostsValue)])).text =
        some "hosts:\n  x:\n    addr: 1\n  y:\n    addr: 2".toList ∧
      (Parse 2 (newParser false) (.Struct [(hostsField, hostsSwapped)])).text =
        some "hosts:\n  y:\n    addr: 2\n  x:\n    addr: 1".toList ∧
      MapIndex hostsValue "x".toList = MapIndex hostsSwapped "x".toList ∧
      MapIndex hostsValue "y".toList = MapIndex hostsSwapped "y".toList ∧
      (MapKeys hostsValue).map List.reverse = MapKeys hostsSwapped := by
  refine ⟨by decide, by decide, rfl, rfl, rfl⟩

/-- C13 (amended): when `Parse` has returned, running it again on the same
renderer and the same value, its maps yielding their keys in the same order,
returns the same text and leaves the same state, in either mode. -/
theorem c13_second_run_same_text (n : Nat) (p : simpleYamlParser) (v : GoValue) (t : Str)
    (p1 : simpleYamlParser) (h : Parse n p v = .ret (t, p1)) :
    Parse n p1 v = .ret (t, p1) := by
  have hp : p1 = { p with originalValue := some v } := by
    unfold Parse at h
    simp only at h
    split at h
    · cases h
    · split at h
      · rename_i sb p2 hl
        have := fieldLoop_state (vToYaml_state n) _ _ _ _ _ hl
        simp only [Outcome.ret.injEq, Prod.mk.injEq] at h
        rw [← h.2, this]
      · cases h
      · cases h
  rw [← h, hp]
  rfl

/-- C13 at the root `peerRoot`: the second run on the state the first one left. -/
theorem c13_second_run_same_text_witness :
    Parse 2 { newParser false with originalValue := some peerRoot } peerRoot =
      .ret ("addr: outer\npeer:\n  addr: inner".toList,
        { newParser false with originalValue := some peerRoot }) :=
  c13_second_run_same_text 2 (newParser false) peerRoot _ _ rfl

/-! ## Two runs side by side -/

theorem strip_eq_cases (a b : Rendered) (h : a.strip = b.strip) :
    (∃ s ca cb, a = .ret (s, ca) ∧ b = .ret (s, cb)) ∨ (a = .abort ∧ b = .abort) ∨
      (a = .starved ∧ b = .starved) := by
  cases a with
  | ret x =>
    cases b with
    | ret y =>
      obtain ⟨s, ca⟩ := x
      obtain ⟨t, cb⟩ := y
      simp only [Outcome.strip, Outcome.ret.injEq] at h
      subst h
      exact Or.inl ⟨s, ca, cb, rfl, rfl⟩
    | abort => simp [Outcome.strip] at h
    | starved => simp [Outcome.strip] at h
  | abort =>
    cases b with
    | ret y => simp [Outcome.strip] at h
    | abort => exact Or.inr (Or.inl ⟨rfl, rfl⟩)
    | starved => simp [Outcome.strip] at h
  | starved =>
    cases b with
    | ret y => simp [Outcome.strip] at h
    | abort => simp [Outcome.strip] at h
    | starved => exact Or.inr (Or.inr ⟨rfl, rfl⟩)

theorem ValueRel_Interface {R : GoValue → GoValue → Prop} (a b : Value)
    (h : ValueRel R a b) : OptRel R a.Interface b.Interface := by
  cases a with
  | Invalid =>
    cases b with
    | Invalid => simp [Value.Interface, OptRel]
    | Of y r2 => simp [ValueRel] at h
  | Of x r1 =>
    cases b with
    | Invalid => simp [ValueRel] at h
    | Of y r2 =>
      obtain ⟨h1, h2⟩ := h
      subst h1
      cases r1 <;> simp [Value.Interface, OptRel, h2]

theorem fieldLoop_sim {rec : simpleYamlParser → StructField → Rendered}
    (hrec : Restores rec) (c1 c2 : simpleYamlParser) (fs : List StructField)
    (h : ∀ f ∈ fs, (rec c1 f).strip = (rec c2 f).strip) (str : Str) :
    (fieldLoop rec fs str c1).strip = (fieldLoop rec fs str c2).strip := by
  induction fs generalizing str with
  | nil => rfl
  | cons f fs ih =>
    unfold fieldLoop
    rcases strip_eq_cases _ _ (h f (List.mem_cons_self _ _)) with
      ⟨s, ca, cb, h1, h2⟩ | ⟨h1, h2⟩ | ⟨h1, h2⟩
    · have e1 := hrec _ _ _ _ h1
      have e2 := hrec _ _ _ _ h2
      subst e1 e2
      rw [h1, h2]
      exact ih (fun g hg => h g (List.mem_cons_of_mem _ hg)) _
    · rw [h1, h2]
    · rw [h1, h2]

theorem structLoop_sim {rec : simpleYamlParser → StructField → Rendered}
    (hrec : Restores rec) (name : Str) (c1 c2 : simpleYamlParser) (fs : List StructField)
    (h : OptRel
      (fun x y => ∀ f ∈ fs,
        (rec { c1 with currVal := some x } f).strip =
          (rec { c2 with currVal := some y } f).strip)
      (_getValue c1 name).Interface (_getValue c2 name).Interface)
    (str : Str) :
    (structLoop rec name fs str c1).strip = (structLoop rec name fs str c2).strip := by
  cases h1 : (_getValue c1 name).Interface with
  | none =>
    cases h2 : (_getValue c2 name).Interface with
    | none =>
      cases fs with
      | nil => rfl
      | cons f fs => simp only [structLoop, h1, h2]
    | some y => rw [h1, h2] at h; exact absurd h (by simp [OptRel])
  | some x =>
    cases h2 : (_getValue c2 name).Interface with
    | none => rw [h1, h2] at h; exact absurd h (by simp [OptRel])
    | some y =>
      rw [h1, h2] at h
      simp only [OptRel] at h
      have key : ∀ gs : List StructField,
          (∀ f ∈ gs, (rec { c1 with currVal := some x } f).strip =
            (rec { c2 with currVal := some y } f).strip) →
          ∀ str, (structLoop rec name gs str c1).strip =
            (structLoop rec name gs str c2).strip := by
        intro gs
        induction gs with
        | nil => intro _ _; rfl
        | cons f gs ih =>
          intro hg str
          unfold structLoop
          simp only [h1, h2]
          rcases strip_eq_cases _ _ (hg f (List.mem_cons_self _ _)) with
            ⟨s, ca, cb, e1, e2⟩ | ⟨e1, e2⟩ | ⟨e1, e2⟩
          · have q1 := hrec _ _ _ _ e1
            have q2 := hrec _ _ _ _ e2
            subst q1 q2
            rw [e1, e2]
            exact ih (fun g hg2 => hg g (List.mem_cons_of_mem _ hg2)) _
          · rw [e1, e2]
          · rw [e1, e2]
      exact key fs h str

theorem mapLoop_sim {rec : simpleYamlParser → StructField → Rendered}
    (hrec : Restores rec) (m1 m2 : GoValue) (c1 c2 : simpleYamlParser)
    (hi : c1.indent = c2.indent) (keys : List Str)
    (h : ∀ key ∈ keys, OptRel
      (fun x y => structFields x = structFields y ∧ ∀ f,
        (rec { c1 with indent := c1.indent + 1 + 1, currVal := some x } f).strip =
          (rec { c2 with indent := c2.indent + 1 + 1, currVal := some y } f).strip)
      (MapIndex m1 key).Interface (MapIndex m2 key).Interface)
    (str : Str) :
    (mapLoop rec m1 keys str c1).strip = (mapLoop rec m2 keys str c2).strip := by
  obtain ⟨i1, o1, v1, d1⟩ := c1
  obtain ⟨i2, o2, v2, d2⟩ := c2
  simp only at hi
  subst hi
  induction keys generalizing str with
  | nil => rfl
  | cons key keys ih =>
    have hk := h key (List.mem_cons_self _ _)
    unfold mapLoop
    cases h1 : (MapIndex m1 key).Interface with
    | none =>
      cases h2 : (MapIndex m2 key).Interface with
      | none => rfl
      | some y => rw [h1, h2] at hk; exact absurd hk (by simp [OptRel])
    | some x =>
      cases h2 : (MapIndex m2 key).Interface with
      | none => rw [h1, h2] at hk; exact absurd hk (by simp [OptRel])
      | some y =>
        rw [h1, h2] at hk
        simp only [OptRel] at hk
        obtain ⟨hf, hr⟩ := hk
        simp only
        rw [← hf]
        cases hfs : structFields x with
        | none => rfl
        | some fields =>
          simp only
          have hl := fieldLoop_sim hrec
            { indent := i1 + 1 + 1, originalValue := o1, currVal := some x, defaultOnly := d1 }
            { indent := i1 + 1 + 1, originalValue := o2, currVal := some y, defaultOnly := d2 }
            fields (fun f _ => hr f)
            (str ++ Repeat ' ' ((i1 + 1) * 2) ++ key ++ ":\n".toList)
          rcases strip_eq_cases _ _ hl with ⟨s, ca, cb, e1, e2⟩ | ⟨e1, e2⟩ | ⟨e1, e2⟩
          · have q1 := fieldLoop_state hrec _ _ _ _ _ e1
            have q2 := fieldLoop_state hrec _ _ _ _ _ e2
            subst q1 q2
            rw [e1, e2]
            exact ih _ (fun k hk2 => h k (List.mem_cons_of_mem _ hk2))
          · rw [e1, e2]
          · rw [e1, e2]

theorem OptRel_imp {α β : Type} {P Q : α → β → Prop} (h : ∀ a b, P a b → Q a b)
    (oa : Option α) (ob : Option β) (hp : OptRel P oa ob) : OptRel Q oa ob := by
  cases oa <;> cases ob <;> simp only [OptRel] at hp ⊢
  exact h _ _ hp

theorem OptRel_cases {α β : Type} {P : α → β → Prop} (oa : Option α) (ob : Option β)
    (hp : OptRel P oa ob) :
    (oa = none ∧ ob = none) ∨ ∃ a b, oa = some a ∧ ob = some b ∧ P a b := by
  cases oa <;> cases ob <;> simp only [OptRel] at hp
  · exact Or.inl ⟨rfl, rfl⟩
  · exact Or.inr ⟨_, _, rfl, rfl, hp⟩

/-- Two runs of `vToYaml` on the same field, from states of the same depth and
mode whose readings of the field are related, end alike and return the same
text. -/
theorem vToYaml_sim {d : Bool} {R : GoValue → GoValue → Prop} (hR : Simulates d R)
    (n : Nat) (c1 c2 : simpleYamlParser) (v : StructField)
    (hi : c1.indent = c2.indent) (hd1 : c1.defaultOnly = d) (hd2 : c2.defaultOnly = d)
    (hv : ValueRel R (_getValue c1 v.Name) (_getValue c2 v.Name)) :
    (vToYaml n c1 v).strip = (vToYaml n c2 v).strip := by
  induction n generalizing c1 c2 v with
  | zero => rfl
  | succ n ih =>
    obtain ⟨i, o1, cv1, e0⟩ := c1
    obtain ⟨i2, o2, cv2, e2⟩ := c2
    simp only at hi hd1 hd2
    subst hi hd1 hd2
    have hI := ValueRel_Interface _ _ hv
    rcases Kind.cases_switch v.Typ.Kind with hk | hk | hk | hk | hk | hk
    · rw [vToYaml_ptr n _ v hk, vToYaml_ptr n _ v hk]
    · rw [vToYaml_struct n _ v hk, vToYaml_struct n _ v hk]
      unfold caseStruct
      simp only
      have hl := structLoop_sim (vToYaml_state n) v.Name
        { indent := i + 1, originalValue := o1, currVal := cv1, defaultOnly := e2 }
        { indent := i + 1, originalValue := o2, currVal := cv2, defaultOnly := e2 }
        v.Typ.Fields
        (OptRel_imp (fun x y hxy f _ =>
          ih { indent := i + 1, originalValue := o1, currVal := some x, defaultOnly := e2 }
            { indent := i + 1, originalValue := o2, currVal := some y, defaultOnly := e2 }
            f rfl rfl rfl (hR.field x y f.Name hxy)) _ _ hI)
        (Repeat ' ' (i * 2) ++ v.Tag.Get "yaml".toList ++ ":\n".toList)
      rcases strip_eq_cases _ _ hl with ⟨s, ca, cb, q1, q2⟩ | ⟨q1, q2⟩ | ⟨q1, q2⟩
      · have r1 := structLoop_state (vToYaml_state n) _ _ _ _ _ _ q1
        have r2 := structLoop_state (vToYaml_state n) _ _ _ _ _ _ q2
        subst r1 r2
        rw [q1, q2]
        simp only
        split <;> rfl
      · rw [q1, q2]
      · rw [q1, q2]
    · rw [vToYaml_map n _ v hk, vToYaml_map n _ v hk]
      unfold caseMap
      simp only
      rcases OptRel_cases _ _ hI with ⟨q1, q2⟩ | ⟨m1, m2, q1, q2, hm⟩
      · rw [q1, q2]
      · rw [q1, q2]
        simp only
        rw [← hR.keys m1 m2 hm]
        cases hks : MapKeys m1 with
        | none => rfl
        | some keys =>
          simp only
          have hl := mapLoop_sim (vToYaml_state n) m1 m2
            { indent := i, originalValue := o1, currVal := cv1, defaultOnly := e2 }
            { indent := i, originalValue := o2, currVal := cv2, defaultOnly := e2 }
            rfl keys
            (fun key _ => OptRel_imp (fun x y hxy =>
              ⟨hR.fields x y hxy, fun f =>
                ih { indent := i + 1 + 1, originalValue := o1, currVal := some x,
                      defaultOnly := e2 }
                  { indent := i + 1 + 1, originalValue := o2, currVal := some y,
                      defaultOnly := e2 }
                  f rfl rfl rfl (hR.field x y f.Name hxy)⟩) _ _
              (ValueRel_Interface _ _ (hR.index m1 m2 key hm)))
            (Repeat ' ' (i * 2) ++ v.Tag.Get "yaml".toList ++ ":\n".toList)
          rcases strip_eq_cases _ _ hl with ⟨s, ca, cb, r1, r2⟩ | ⟨r1, r2⟩ | ⟨r1, r2⟩
          · have t1 := mapLoop_state (vToYaml_state n) _ _ _ _ _ _ r1
            have t2 := mapLoop_state (vToYaml_state n) _ _ _ _ _ _ r2
            subst t1 t2
            rw [r1, r2]
            simp only
            split <;> rfl
          · rw [r1, r2]
          · rw [r1, r2]
    · rw [vToYaml_slice n _ v hk, vToYaml_slice n _ v hk]
      rcases OptRel_cases _ _ hI with ⟨q1, q2⟩ | ⟨x, y, q1, q2, hxy⟩
      · simp only [caseSlice, q1, q2]
      · rcases hR.slice x y hxy with hj | ⟨hd, hj1, hj2⟩
        · cases hjx : jsonStrings x with
          | none =>
            have hjy : jsonStrings y = none := by rw [← hj, hjx]
            simp only [caseSlice, q1, q2, hjx, hjy]
          | some ss =>
            have hjy : jsonStrings y = some ss := by rw [← hj, hjx]
            rw [caseSlice_eq _ v x ss q1 hjx, caseSlice_eq _ v y ss q2 hjy]
            rfl
        · obtain ⟨s1, hs1⟩ := Option.isSome_iff_exists.1 hj1
          obtain ⟨s2, hs2⟩ := Option.isSome_iff_exists.1 hj2
          rw [caseSlice_eq _ v x s1 q1 hs1, caseSlice_eq _ v y s2 q2 hs2]
          subst hd
          simp only [Bool.or_true, if_true]
          rfl
    · rw [vToYaml_primitive n _ v hk, vToYaml_primitive n _ v hk, casePrimitive_eq,
        casePrimitive_eq]
      have hs : shownValue e2 (_getValue (simpleYamlParser.mk i o1 cv1 e2) v.Name)
          (v.Tag.Get "default".toList) =
          shownValue e2 (_getValue (simpleYamlParser.mk i o2 cv2 e2) v.Name)
            (v.Tag.Get "default".toList) := by
        revert hv
        cases _getValue (simpleYamlParser.mk i o1 cv1 e2) v.Name with
        | Invalid =>
          cases _getValue (simpleYamlParser.mk i o2 cv2 e2) v.Name with
          | Invalid => intro _; rfl
          | Of y r2 => intro hv; simp [ValueRel] at hv
        | Of x r1 =>
          cases _getValue (simpleYamlParser.mk i o2 cv2 e2) v.Name with
          | Invalid => intro hv; simp [ValueRel] at hv
          | Of y r2 =>
            intro hv
            obtain ⟨h1, h2⟩ := hv
            subst h1
            exact hR.shown x y r1 _ h2
      simp only [hs, Outcome.strip]
    · rw [vToYaml_skipped n _ v hk, vToYaml_skipped n _ v hk]
      rfl
theorem AlikeFields_fst (f1 f2 : List (StructField × GoValue)) (h : AlikeFields f1 f2) :
    f1.map Prod.fst = f2.map Prod.fst := by
  induction f1 generalizing f2 with
  | nil => cases h; rfl
  | cons a r ih =>
    cases h with
    | cons f x y r1 r2 hxy hr => simp [ih _ hr]

theorem AlikeEntries_fst (e1 e2 : List (Str × GoValue)) (h : AlikeEntries e1 e2) :
    e1.map Prod.fst = e2.map Prod.fst := by
  induction e1 generalizing e2 with
  | nil => cases h; rfl
  | cons a r ih =>
    cases h with
    | cons f x y r1 r2 hxy hr => simp [ih _ hr]

theorem AlikeFields_find (f1 f2 : List (StructField × GoValue)) (h : AlikeFields f1 f2)
    (name : Str) :
    ValueRel Alike ((FieldByName (.Struct f1) name).getD .Invalid)
      ((FieldByName (.Struct f2) name).getD .Invalid) := by
  induction f1 generalizing f2 with
  | nil => cases h; simp [FieldByName, ValueRel]
  | cons a r ih =>
    cases h with
    | cons f x y r1 r2 hxy hr =>
      have := ih _ hr
      simp only [FieldByName, List.find?_cons] at this ⊢
      cases hn : (f.Name == name) with
      | true => simp [ValueRel, hxy]
      | false => simpa using this

theorem AlikeEntries_find (e1 e2 : List (Str × GoValue)) (h : AlikeEntries e1 e2)
    (key : Str) :
    ValueRel Alike (MapIndex (.Map (some e1)) key) (MapIndex (.Map (some e2)) key) := by
  induction e1 generalizing e2 with
  | nil => cases h; simp [MapIndex, ValueRel]
  | cons a r ih =>
    cases h with
    | cons k x y r1 r2 hxy hr =>
      have := ih _ hr
      simp only [MapIndex, List.find?_cons] at this ⊢
      cases hn : (k == key) with
      | true => simp [ValueRel, hxy]
      | false => simpa using this

theorem jsonStrings_strings (live : Option (List Str)) :
    jsonStrings (.Slice (live.map (List.map .String))) = some (live.getD []) := by
  cases live with
  | none => rfl
  | some es =>
    simp only [Option.map_some', jsonStrings, Option.getD_some]
    exact jsonElems_strings es

/-- In defaults-only mode values that are alike show and read the same. -/
theorem simulates_alike : Simulates true Alike where
  field := by
    intro x y name h
    cases h with
    | struct f1 f2 hf => exact AlikeFields_find f1 f2 hf name
    | _ => simp [FieldByName, ValueRel]
  keys := by
    intro x y h
    cases h with
    | map e1 e2 he => simp only [MapKeys, AlikeEntries_fst e1 e2 he]
    | _ => rfl
  index := by
    intro x y key h
    cases h with
    | map e1 e2 he => exact AlikeEntries_find e1 e2 he key
    | _ => simp [MapIndex, ValueRel]
  fields := by
    intro x y h
    cases h with
    | struct f1 f2 hf => simp only [structFields, AlikeFields_fst f1 f2 hf]
    | _ => rfl
  slice := by
    intro x y h
    cases h with
    | slice s1 s2 =>
      right
      rw [jsonStrings_strings, jsonStrings_strings]
      exact ⟨rfl, rfl, rfl⟩
    | _ => left; rfl
  shown := by
    intro x y r defTag _
    simp only [shownValue, Bool.not_true, Bool.false_and, Bool.false_eq_true, if_false]

theorem Parse_sim {d : Bool} {R : GoValue → GoValue → Prop} (hR : Simulates d R) (n : Nat)
    (p1 p2 : simpleYamlParser) (v1 v2 : GoValue) (hi : p1.indent = p2.indent)
    (hd1 : p1.defaultOnly = d) (hd2 : p2.defaultOnly = d)
    (hf : structFields v1 = structFields v2)
    (hv : ∀ f ∈ (structFields v2).getD [],
      ValueRel R (_getValue { p1 with originalValue := some v1 } f.Name)
        (_getValue { p2 with originalValue := some v2 } f.Name)) :
    (Parse n p1 v1).strip = (Parse n p2 v2).strip := by
  unfold Parse
  simp only
  rw [hf]
  cases hs : structFields v2 with
  | none => rfl
  | some fields =>
    simp only
    rw [hs] at hv
    have hl := fieldLoop_sim (vToYaml_state n) { p1 with originalValue := some v1 }
      { p2 with originalValue := some v2 } fields
      (fun f hfm => vToYaml_sim hR n _ _ f hi hd1 hd2 (hv f hfm)) []
    rcases strip_eq_cases _ _ hl with ⟨s, ca, cb, q1, q2⟩ | ⟨q1, q2⟩ | ⟨q1, q2⟩
    · rw [q1, q2]; rfl
    · rw [q1, q2]
    · rw [q1, q2]

/-- C11 (as stated, refuted): two values of one root type, the one with a nil
map and the other with the keys `x` and `y`, render differently in defaults-only
mode: the keys of the live map are rendered. -/
theorem c11_live_keys_rendered_in_defaults_only :
    (Parse 2 (newParser true) (.Struct [(hostsField, .Map none)])).text =
        some "hosts:".toList ∧
      (Parse 2 (newParser true) (.Struct [(hostsField, hostsValue)])).text =
        some "hosts:\n  x:\n    addr:\n  y:\n    addr:".toList := by
  decide

/-- C11 (amended): two values that are alike, that is of the same shape, with the
same keys in their keyed collections and with lists that are nil or lists of
strings, give the same result in defaults-only mode (the same text, or both
abort), whatever their leaf values and list elements. -/
theorem c11_defaults_only_alike_values (n : Nat) (v1 v2 : GoValue) (h : Alike v1 v2) :
    (Parse n (newParser true) v1).strip = (Parse n (newParser true) v2).strip :=
  Parse_sim simulates_alike n _ _ v1 v2 rfl rfl rfl (simulates_alike.fields v1 v2 h)
    (fun f _ => simulates_alike.field v1 v2 f.Name h)

/-- C11 at two values that differ in a leaf value, in the elements of a list and
in a leaf value under the key `x` of a map. -/
theorem c11_defaults_only_alike_values_witness :
    (Parse 3 (newParser true)
        (.Struct [(yamlName, .String []), (tagsField (.Basic .String), .Slice none),
          (hostsField, .Map (some [("x".toList, .Struct [(addrField, .String "1".toList)])]))])).strip =
      (Parse 3 (newParser true)
        (.Struct [(yamlName, .String "live".toList),
          (tagsField (.Basic .String), .Slice (some [.String "p".toList])),
          (hostsField,
            .Map (some [("x".toList, .Struct [(addrField, .String "9".toList)])]))])).strip :=
  c11_defaults_only_alike_values 3 _ _
    (.struct _ _
      (.cons _ _ _ _ _ (.string _ _)
        (.cons _ _ _ _ _ (.slice none (some ["p".toList]))
          (.cons _ _ _ _ _
            (.map _ _
              (.cons _ _ _ _ _ (.struct _ _ (.cons _ _ _ _ _ (.string _ _) .nil)) .nil))
            .nil))))
/-! ## Fields of a kind the renderer passes over -/

theorem noNewline_iff (s : Str) : noNewline s = true ↔ '\n' ∉ s := by
  simp [noNewline, List.all_eq_true]
  constructor
  · intro h hm; exact h _ hm rfl
  · intro h x hx hx2; subst hx2; exact h hx

theorem unlines_nil : unlines [] = [] := rfl

theorem unlines_cons (l : Str) (ls : List Str) :
    unlines (l :: ls) = l ++ '\n' :: unlines ls := by
  simp [unlines]

theorem unlines_append (a b : List Str) : unlines (a ++ b) = unlines a ++ unlines b := by
  simp [unlines]

theorem unlines_flatten (lss : List (List Str)) :
    unlines lss.flatten = (lss.map unlines).flatten := by
  induction lss with
  | nil => rfl
  | cons a r ih => simp [unlines_append, ih]

theorem GoodLine_weaken (d : Nat) (l : Str) (h : GoodLine (d + 1) l) : GoodLine d l := by
  refine ⟨h.1, h.2.1, ?_⟩
  have : Repeat ' ' (2 * d) <+: Repeat ' ' (2 * (d + 1)) := by
    refine ⟨Repeat ' ' 2, ?_⟩
    simp only [Repeat, ← List.replicate_add]
    rfl
  exact this.trans h.2.2

theorem Split_sep_free (sep : Char) (a rest : Str) (h : sep ∉ a) :
    Split sep (a ++ sep :: rest) = a :: Split sep rest := by
  induction a with
  | nil => simp [Split]
  | cons x r ih =>
    have hx : x ≠ sep := fun e => h (by simp [e])
    have hr : sep ∉ r := fun e => h (List.mem_cons_of_mem _ e)
    rw [List.cons_append, Split, if_neg hx, ih hr]

theorem Split_unlines (ls : List Str) (tail : Str) (h : ∀ l ∈ ls, '\n' ∉ l) :
    Split '\n' (unlines ls ++ tail) = ls ++ Split '\n' tail := by
  induction ls with
  | nil => rfl
  | cons l r ih =>
    rw [unlines_cons, List.append_assoc, List.cons_append,
      Split_sep_free '\n' l _ (h l (List.mem_cons_self _ _)),
      ih (fun x hx => h x (List.mem_cons_of_mem _ hx))]
    rfl

theorem Split_mem (sep : Char) (s : Str) : ∀ piece ∈ Split sep s, ∀ a ∈ piece, a ∈ s := by
  induction s with
  | nil => simp [Split]
  | cons x r ih =>
    unfold Split
    by_cases h : x = sep
    · rw [if_pos h]
      intro piece hp a ha
      rcases List.mem_cons.1 hp with h1 | h1
      · subst h1; cases ha
      · exact List.mem_cons_of_mem _ (ih piece h1 a ha)
    · rw [if_neg h]
      cases hs : Split sep r with
      | nil =>
        intro piece hp a ha
        simp only [List.mem_singleton] at hp
        subst hp
        simp only [List.mem_singleton] at ha
        subst ha
        exact List.mem_cons_self _ _
      | cons y ys =>
        rw [hs] at ih
        intro piece hp a ha
        rcases List.mem_cons.1 hp with h1 | h1
        · subst h1
          rcases List.mem_cons.1 ha with h2 | h2
          · subst h2; exact List.mem_cons_self _ _
          · exact List.mem_cons_of_mem _ (ih y (List.mem_cons_self _ _) a h2)
        · exact List.mem_cons_of_mem _ (ih piece (List.mem_cons_of_mem _ h1) a ha)

theorem TrimSpace_mem (s : Str) (a : Char) (h : a ∈ TrimSpace s) : a ∈ s := by
  unfold TrimSpace at h
  rw [List.mem_reverse] at h
  have h1 := (List.dropWhile_suffix isSpace).subset h
  rw [List.mem_reverse] at h1
  exact (List.dropWhile_suffix isSpace).subset h1

theorem Get_clean (tag : StructTag) (key : Str) (h : cleanTag tag = true) :
    '\n' ∉ tag.Get key := by
  unfold StructTag.Get
  cases hf : tag.find? (fun p => p.1 == key) with
  | none => simp
  | some p =>
    have hm := List.mem_of_find?_eq_some hf
    simp only [cleanTag, List.all_eq_true] at h
    exact (noNewline_iff _).1 (h p hm)

theorem field_clean_tag (v : StructField) (h : v.clean = true) : cleanTag v.Tag = true := by
  cases v with
  | mk a b t tag =>
    simp only [StructField.clean, Bool.and_eq_true] at h
    exact h.1

theorem cleanFields_mem (fs : List StructField) (h : cleanFields fs = true) :
    ∀ f ∈ fs, f.clean = true := by
  induction fs with
  | nil => simp
  | cons g r ih =>
    simp only [cleanFields, Bool.and_eq_true] at h
    intro f hf
    rcases List.mem_cons.1 hf with h1 | h1
    · subst h1; exact h.1
    · exact ih h.2 f h1

theorem field_clean_fields (v : StructField) (h : v.clean = true) :
    ∀ f ∈ v.Typ.Fields, f.clean = true := by
  cases v with
  | mk a b t tag =>
    simp only [StructField.clean, Bool.and_eq_true] at h
    cases t with
    | Struct fs =>
      simp only [GoType.clean] at h
      exact cleanFields_mem fs h.2
    | _ => simp [StructField.Typ, GoType.Fields]

theorem cleanFieldValues_mem (fs : List (StructField × GoValue))
    (h : cleanFieldValues fs = true) :
    ∀ e ∈ fs, e.1.clean = true ∧ '\n' ∉ printValue e.2 ∧ e.2.clean = true := by
  induction fs with
  | nil => simp
  | cons g r ih =>
    obtain ⟨f, x⟩ := g
    simp only [cleanFieldValues, Bool.and_eq_true] at h
    intro e he
    rcases List.mem_cons.1 he with h1 | h1
    · subst h1
      exact ⟨h.1.1.1, (noNewline_iff _).1 h.1.1.2, h.1.2⟩
    · exact ih h.2 e h1

theorem cleanEntries_mem (es : List (Str × GoValue)) (h : cleanEntries es = true) :
    ∀ e ∈ es, '\n' ∉ e.1 ∧ e.2.clean = true := by
  induction es with
  | nil => simp
  | cons g r ih =>
    obtain ⟨k, x⟩ := g
    simp only [cleanEntries, Bool.and_eq_true] at h
    intro e he
    rcases List.mem_cons.1 he with h1 | h1
    · subst h1
      exact ⟨(noNewline_iff _).1 h.1.1, h.1.2⟩
    · exact ih h.2 e h1

theorem FieldByName_clean (cv : GoValue) (name : Str) (x : GoValue) (ro : Bool)
    (hc : cv.clean = true) (h : (FieldByName cv name).getD .Invalid = .Of x ro) :
    '\n' ∉ printValue x ∧ x.clean = true := by
  cases cv with
  | Struct fs =>
    simp only [FieldByName] at h
    cases hf : fs.find? (fun p => p.1.Name == name) with
    | none => rw [hf] at h; cases h
    | some e =>
      rw [hf] at h
      simp only [Option.getD_some, Value.Of.injEq] at h
      have := cleanFieldValues_mem fs hc e (List.mem_of_find?_eq_some hf)
      rw [← h.1]
      exact this.2
  | _ => simp [FieldByName] at h

theorem getValue_clean (c : simpleYamlParser) (name : Str) (x : GoValue) (ro : Bool)
    (hc : ctxClean c = true) (h : _getValue c name = .Of x ro) :
    '\n' ∉ printValue x ∧ x.clean = true := by
  unfold _getValue at h
  unfold ctxClean at hc
  cases hcv : c.currVal with
  | some cv =>
    rw [hcv] at h hc
    exact FieldByName_clean cv name x ro hc h
  | none =>
    rw [hcv] at h hc
    cases ho : c.originalValue with
    | some ov =>
      rw [ho] at h hc
      exact FieldByName_clean ov name x ro hc h
    | none => rw [ho] at h; cases h

theorem Interface_some (a : Value) (x : GoValue) (h : a.Interface = some x) :
    a = .Of x false := by
  cases a with
  | Invalid => cases h
  | Of y ro =>
    cases ro
    · simp only [Value.Interface, Bool.false_eq_true, if_false, Option.some.injEq] at h
      rw [h]
    · simp [Value.Interface] at h

theorem MapIndex_clean (m : GoValue) (key : Str) (x : GoValue) (hc : m.clean = true)
    (h : (MapIndex m key).Interface = some x) : x.clean = true := by
  cases m with
  | Map es =>
    cases es with
    | none => simp [MapIndex, Value.Interface] at h
    | some es =>
      simp only [MapIndex] at h
      cases hf : es.find? (fun e => e.1 == key) with
      | none => rw [hf] at h; simp [Value.Interface] at h
      | some e =>
        rw [hf] at h
        simp only [Value.Interface, Bool.false_eq_true, if_false, Option.some.injEq] at h
        rw [← h]
        exact (cleanEntries_mem es hc e (List.mem_of_find?_eq_some hf)).2
  | _ => simp [MapIndex, Value.Interface] at h

theorem MapKeys_clean (m : GoValue) (keys : List Str) (hc : m.clean = true)
    (h : MapKeys m = some keys) : ∀ k ∈ keys, '\n' ∉ k := by
  cases m with
  | Map es =>
    cases es with
    | none =>
      simp only [MapKeys, Option.some.injEq] at h
      subst h
      simp
    | some es =>
      simp only [MapKeys, Option.some.injEq] at h
      subst h
      intro k hk
      obtain ⟨e, he, he2⟩ := List.mem_map.1 hk
      rw [← he2]
      exact (cleanEntries_mem es hc e he).1
  | _ => simp [MapKeys] at h

theorem structFields_clean (sv : GoValue) (fields : List StructField)
    (hc : sv.clean = true) (h : structFields sv = some fields) :
    ∀ f ∈ fields, f.clean = true := by
  cases sv with
  | Struct fs =>
    simp only [structFields, Option.some.injEq] at h
    subst h
    intro f hf
    obtain ⟨e, he, he2⟩ := List.mem_map.1 hf
    rw [← he2]
    exact (cleanFieldValues_mem fs hc e he).1
  | _ => simp [structFields] at h
theorem Repeat_no_newline (n : Nat) : '\n' ∉ Repeat ' ' n := by
  simp [Repeat, List.mem_replicate]

theorem headerLine_good (d : Nat) (name : Str) (hn : '\n' ∉ name) :
    headerLine d name = unlines [Repeat ' ' (2 * d) ++ name ++ [':']] ∧
      GoodLine d (Repeat ' ' (2 * d) ++ name ++ [':']) := by
  refine ⟨by simp [headerLine, unlines], ?_, by simp, ?_⟩
  · have := Repeat_no_newline (2 * d)
    simp [List.mem_append, this, hn]
  · rw [List.append_assoc]
    exact List.prefix_append _ _

theorem keyLine_good (d : Nat) (key : Str) (hn : '\n' ∉ key) :
    Repeat ' ' ((d + 1) * 2) ++ key ++ ":\n".toList =
        unlines [Repeat ' ' (2 * (d + 1)) ++ key ++ [':']] ∧
      GoodLine (d + 1) (Repeat ' ' (2 * (d + 1)) ++ key ++ [':']) := by
  refine ⟨by simp [unlines, Nat.mul_comm], ?_, by simp, ?_⟩
  · have := Repeat_no_newline (2 * (d + 1))
    simp [List.mem_append, this, hn]
  · rw [List.append_assoc]
    exact List.prefix_append _ _

theorem itemLine_good (d : Nat) (item : Str) (hn : '\n' ∉ item) :
    itemLine d item = unlines [Repeat ' ' (2 * (d + 1)) ++ "- ".toList ++ TrimSpace item] ∧
      GoodLine (d + 1) (Repeat ' ' (2 * (d + 1)) ++ "- ".toList ++ TrimSpace item) := by
  refine ⟨by simp [itemLine, unlines], ?_, by simp, ?_⟩
  · have := Repeat_no_newline (2 * (d + 1))
    have h2 : '\n' ∉ TrimSpace item := fun h => hn (TrimSpace_mem _ _ h)
    simp [List.mem_append, this, h2]
  · rw [List.append_assoc]
    exact List.prefix_append _ _

theorem leafLine_good (d : Nat) (name value comment : Str) (opt : Bool)
    (hn : '\n' ∉ name) (hv : '\n' ∉ value) (hc : '\n' ∉ comment) :
    ∃ l, leafLine d name value comment opt = unlines [l] ∧ GoodLine d l ∧
      Repeat ' ' (2 * d) ++ name ++ [':'] <+: l := by
  refine ⟨leafBase d name value comment ++
    (if opt then (if comment = [] then " # (optional)".toList else " (optional)".toList)
     else []), by simp [leafLine, unlines], ⟨?_, ?_, ?_⟩, ?_⟩
  · have := Repeat_no_newline (2 * d)
    unfold leafBase
    by_cases h1 : value = [] <;> by_cases h2 : comment = [] <;> cases opt <;>
      simp [List.mem_append, this, hn, hv, hc, h1, h2]
  · unfold leafBase
    by_cases h1 : value = [] <;> simp [h1]
  · unfold leafBase
    simp only [List.append_assoc]
    exact List.prefix_append _ _
  · unfold leafBase
    by_cases h1 : value = []
    · simp [h1, List.prefix_append_right_inj]
    · simp [h1, List.prefix_append_right_inj]

theorem flatten_lines (d : Nat) (texts : List Str)
    (h : ∀ t ∈ texts, ∃ ls, (∀ l ∈ ls, GoodLine d l) ∧ t = unlines ls) :
    ∃ ls, (∀ l ∈ ls, GoodLine d l) ∧ texts.flatten = unlines ls := by
  induction texts with
  | nil => exact ⟨[], by simp, rfl⟩
  | cons t r ih =>
    obtain ⟨l1, h1, e1⟩ := h t (List.mem_cons_self _ _)
    obtain ⟨l2, h2, e2⟩ := ih (fun x hx => h x (List.mem_cons_of_mem _ hx))
    refine ⟨l1 ++ l2, ?_, ?_⟩
    · intro l hl
      rcases List.mem_append.1 hl with q | q
      · exact h1 l q
      · exact h2 l q
    · rw [List.flatten_cons, e1, e2, unlines_append]

theorem forall2_texts {α : Type} {R : α → Str → Prop} {Q : Str → Prop} {fs : List α}
    {texts : List Str} (h : List.Forall₂ R fs texts) (hq : ∀ f ∈ fs, ∀ t, R f t → Q t) :
    ∀ t ∈ texts, Q t := by
  induction h with
  | nil => intro t ht; cases ht
  | cons hab _ ih =>
    intro t ht
    rcases List.mem_cons.1 ht with h1 | h1
    · subst h1
      exact hq _ (List.mem_cons_self _ _) _ hab
    · exact ih (fun f hf => hq f (List.mem_cons_of_mem _ hf)) t h1
theorem jsonElems_clean (xs : List GoValue) (ss : List Str) (hc : cleanElems xs = true)
    (h : jsonElems xs = some ss) : ∀ s ∈ ss, '\n' ∉ s := by
  induction xs generalizing ss with
  | nil =>
    simp only [jsonElems, Option.some.injEq] at h
    subst h
    simp
  | cons x r ih =>
    simp only [cleanElems, Bool.and_eq_true] at hc
    unfold jsonElems at h
    cases hx : jsonElem x with
    | none => rw [hx] at h; simp at h
    | some s0 =>
      cases hr : jsonElems r with
      | none => rw [hx, hr] at h; simp at h
      | some ss0 =>
        rw [hx, hr] at h
        simp only [Option.some.injEq] at h
        subst h
        intro s hs
        rcases List.mem_cons.1 hs with h1 | h1
        · subst h1
          cases x with
          | String a =>
            simp only [jsonElem, Option.some.injEq] at hx
            subst hx
            exact (noNewline_iff _).1 hc.1
          | Map m =>
            cases m with
            | none => simp only [jsonElem, Option.some.injEq] at hx; subst hx; simp
            | some m => simp [jsonElem] at hx
          | Slice m =>
            cases m with
            | none => simp only [jsonElem, Option.some.injEq] at hx; subst hx; simp
            | some m => simp [jsonElem] at hx
          | NilPtr => simp only [jsonElem, Option.some.injEq] at hx; subst hx; simp
          | _ => simp [jsonElem] at hx
        · exact ih ss0 hc.2 hr s h1

theorem jsonStrings_clean (x : GoValue) (ss : List Str) (hc : x.clean = true)
    (h : jsonStrings x = some ss) : ∀ s ∈ ss, '\n' ∉ s := by
  cases x with
  | Slice m =>
    cases m with
    | none => simp only [jsonStrings, Option.some.injEq] at h; subst h; simp
    | some xs => exact jsonElems_clean xs ss hc h
  | Map m =>
    cases m with
    | none => simp only [jsonStrings, Option.some.injEq] at h; subst h; simp
    | some m => simp [jsonStrings] at h
  | NilPtr => simp only [jsonStrings, Option.some.injEq] at h; subst h; simp
  | _ => simp [jsonStrings] at h

theorem structLoop_none {rec : simpleYamlParser → StructField → Rendered} (name : Str)
    (fs : List StructField) (str : Str) (c : simpleYamlParser) (out : Str)
    (c1 : simpleYamlParser) (hx : (_getValue c name).Interface = none)
    (h : structLoop rec name fs str c = .ret (out, c1)) : out = str := by
  cases fs with
  | nil =>
    simp only [structLoop, Outcome.ret.injEq, Prod.mk.injEq] at h
    exact h.1.symm
  | cons f r =>
    simp only [structLoop, hx] at h
    cases h

theorem primitive_not_block (k : Kind) (h : isPrimitiveKind k = true) :
    k ≠ .Struct ∧ k ≠ .Map := by
  cases k <;> simp [isPrimitiveKind] at h <;> simp

theorem shownValue_clean (c : simpleYamlParser) (name defTag : Str) (hc : ctxClean c = true)
    (hd : '\n' ∉ defTag) : '\n' ∉ shownValue c.defaultOnly (_getValue c name) defTag := by
  unfold shownValue
  split
  · cases hg : _getValue c name with
    | Invalid =>
      have : '\n' ∉ "<invalid reflect.Value>".toList := by decide
      exact this
    | Of x ro =>
      simp only [Sprintf]
      exact (getValue_clean c name x ro hc hg).1
  · exact hd

/-- A text that `vToYaml` returns, when neither the annotations nor the live
values hold a newline, is made of lines that are not empty and start with the
indentation of the depth, the first of them with the display name and a colon
behind the indentation; only a struct or map at depth 0 ends with one more
newline. -/
theorem vToYaml_lines (n : Nat) (c : simpleYamlParser) (v : StructField) (t : Str)
    (c1 : simpleYamlParser) (hv : v.clean = true) (hc : ctxClean c = true)
    (h : vToYaml n c v = .ret (t, c1)) :
    ∃ ls, (∀ l ∈ ls, GoodLine c.indent l) ∧
      t = unlines ls ++
        (if c.indent = 0 ∧ (v.Typ.Kind = .Struct ∨ v.Typ.Kind = .Map) then "\n".toList
         else []) ∧
      (isSkippedKind v.Typ.Kind = false →
        ∃ l0 rest, ls = l0 :: rest ∧
          Repeat ' ' (2 * c.indent) ++ v.Tag.Get "yaml".toList ++ [':'] <+: l0) := by
  induction n generalizing c v t c1 with
  | zero => simp [vToYaml] at h
  | succ n ih =>
    have hname : '\n' ∉ v.Tag.Get "yaml".toList := Get_clean _ _ (field_clean_tag v hv)
    have hhead := headerLine_good c.indent _ hname
    have hh : Repeat ' ' (c.indent * 2) ++ v.Tag.Get "yaml".toList ++ ":\n".toList =
        headerLine c.indent (v.Tag.Get "yaml".toList) := by
      simp only [headerLine, Nat.mul_comm]
    have hchild : ∀ (c2 : simpleYamlParser) (k : Nat) (f : StructField) (t2 : Str)
        (c3 : simpleYamlParser), c2.indent = k + 1 → f.clean = true → ctxClean c2 = true →
        vToYaml n c2 f = .ret (t2, c3) →
        ∃ ls, (∀ l ∈ ls, GoodLine (k + 1) l) ∧ t2 = unlines ls := by
      intro c2 k f t2 c3 hk2 hf hc2 hr
      obtain ⟨ls, h1, h2, _⟩ := ih c2 f t2 c3 hf hc2 hr
      rw [hk2] at h1 h2
      refine ⟨ls, h1, ?_⟩
      rw [h2, if_neg (by simp), List.append_nil]
    rcases Kind.cases_switch v.Typ.Kind with hk | hk | hk | hk | hk | hk
    · rw [vToYaml_ptr n c v hk] at h; cases h
    · rw [vToYaml_struct n c v hk] at h
      have hsep : (c.indent = 0 ∧ (v.Typ.Kind = .Struct ∨ v.Typ.Kind = .Map)) ↔
          c.indent = 0 := by simp [hk]
      cases hI : (_getValue c v.Name).Interface with
      | none =>
        have hI2 : (_getValue { c with indent := c.indent + 1 } v.Name).Interface = none := hI
        unfold caseStruct at h
        simp only at h
        split at h
        · rename_i str c2 hl
          have hs := structLoop_none _ _ _ _ _ _ hI2 hl
          have hst := structLoop_state (vToYaml_state n) _ _ _ _ _ _ hl
          subst hst
          refine ⟨[Repeat ' ' (2 * c.indent) ++ v.Tag.Get "yaml".toList ++ [':']], ?_, ?_, ?_⟩
          · intro l hl2
            simp only [List.mem_singleton] at hl2
            subst hl2
            exact hhead.2
          · rw [← hhead.1, ← hh, ← hs]
            by_cases h0 : c.indent = 0
            · rw [if_pos (hsep.2 h0)]
              simp only [h0, Nat.zero_add, Nat.sub_self, beq_self_eq_true, if_true,
                Outcome.ret.injEq, Prod.mk.injEq] at h
              exact h.1.symm
            · rw [if_neg (fun q => h0 (hsep.1 q)), List.append_nil]
              have : (c.indent + 1 - 1 == 0) = false := by simpa using h0
              simp only [this, Bool.false_eq_true, if_false, Outcome.ret.injEq,
                Prod.mk.injEq] at h
              exact h.1.symm
          · intro _
            exact ⟨_, [], rfl, List.prefix_refl _⟩
        · cases h
        · cases h
      | some x =>
        obtain ⟨_, texts, hall, hout⟩ :=
          (caseStruct_ret (vToYaml_state n) c v x hI t c1).1 h
        have hxc := (getValue_clean c v.Name x false hc (Interface_some _ _ hI)).2
        have hfields := field_clean_fields v hv
        have htexts : ∀ t2 ∈ texts, ∃ ls, (∀ l ∈ ls, GoodLine c.indent l) ∧ t2 = unlines ls :=
          forall2_texts hall (fun f hf t2 hr => by
            obtain ⟨ls, h1, h2⟩ := hchild { c with indent := c.indent + 1, currVal := some x } c.indent f t2 _ rfl
              (hfields f hf) hxc hr
            exact ⟨ls, fun l hl => GoodLine_weaken _ _ (h1 l hl), h2⟩)
        obtain ⟨ls, hls, els⟩ := flatten_lines c.indent texts htexts
        refine ⟨(Repeat ' ' (2 * c.indent) ++ v.Tag.Get "yaml".toList ++ [':']) :: ls,
          ?_, ?_, ?_⟩
        · intro l hl
          rcases List.mem_cons.1 hl with q | q
          · subst q; exact hhead.2
          · exact hls l q
        · rw [hout, hh, hhead.1, els, ← unlines_append]
          by_cases h0 : c.indent = 0
          · rw [if_pos h0, if_pos (hsep.2 h0)]; rfl
          · rw [if_neg h0, if_neg (fun q => h0 (hsep.1 q))]; rfl
        · intro _
          exact ⟨_, ls, rfl, List.prefix_refl _⟩
    · rw [vToYaml_map n c v hk] at h
      have hsep : (c.indent = 0 ∧ (v.Typ.Kind = .Struct ∨ v.Typ.Kind = .Map)) ↔
          c.indent = 0 := by simp [hk]
      cases hI : (_getValue c v.Name).Interface with
      | none => simp only [caseMap, hI] at h; cases h
      | some m =>
        cases hks : MapKeys m with
        | none => simp only [caseMap, hI, hks] at h; cases h
        | some keys =>
          obtain ⟨_, blocks, hall, hout⟩ :=
            (caseMap_ret (vToYaml_state n) c v m hI keys hks t c1).1 h
          have hmc := (getValue_clean c v.Name m false hc (Interface_some _ _ hI)).2
          have hkeys := MapKeys_clean m keys hmc hks
          have hblocks : ∀ b ∈ blocks, ∃ ls, (∀ l ∈ ls, GoodLine c.indent l) ∧ b = unlines ls :=
            forall2_texts hall (fun key hkey b hb => by
              obtain ⟨sv, fields, texts, hsv, hfs, hft, hb2⟩ := hb
              have hsvc := MapIndex_clean m key sv hmc hsv
              have hfc := structFields_clean sv fields hsvc hfs
              have htexts : ∀ t2 ∈ texts,
                  ∃ ls, (∀ l ∈ ls, GoodLine c.indent l) ∧ t2 = unlines ls :=
                forall2_texts hft (fun f hf t2 hr => by
                  obtain ⟨ls, h1, h2⟩ :=
                    hchild { c with indent := c.indent + 2, currVal := some sv }
                      (c.indent + 1) f t2 _ rfl (hfc f hf) hsvc hr
                  exact ⟨ls, fun l hl =>
                    GoodLine_weaken _ _ (GoodLine_weaken _ _ (h1 l hl)), h2⟩)
              obtain ⟨ls, hls, els⟩ := flatten_lines c.indent texts htexts
              have hkl := keyLine_good c.indent key (hkeys key hkey)
              refine ⟨(Repeat ' ' (2 * (c.indent + 1)) ++ key ++ [':']) :: ls, ?_, ?_⟩
              · intro l hl
                rcases List.mem_cons.1 hl with q | q
                · subst q; exact GoodLine_weaken _ _ hkl.2
                · exact hls l q
              · rw [hb2, hkl.1, els, ← unlines_append]; rfl)
          obtain ⟨ls, hls, els⟩ := flatten_lines c.indent blocks hblocks
          refine ⟨(Repeat ' ' (2 * c.indent) ++ v.Tag.Get "yaml".toList ++ [':']) :: ls,
            ?_, ?_, ?_⟩
          · intro l hl
            rcases List.mem_cons.1 hl with q | q
            · subst q; exact hhead.2
            · exact hls l q
          · rw [hout, hh, hhead.1, els, ← unlines_append]
            by_cases h0 : c.indent = 0
            · rw [if_pos h0, if_pos (hsep.2 h0)]; rfl
            · rw [if_neg h0, if_neg (fun q => h0 (hsep.1 q))]; rfl
          · intro _
            exact ⟨_, ls, rfl, List.prefix_refl _⟩
    · rw [vToYaml_slice n c v hk] at h
      have hsep : ¬ (c.indent = 0 ∧ (v.Typ.Kind = .Struct ∨ v.Typ.Kind = .Map)) := by
        simp [hk]
      cases hI : (_getValue c v.Name).Interface with
      | none => simp only [caseSlice, hI] at h; cases h
      | some x =>
        cases hj : jsonStrings x with
        | none => simp only [caseSlice, hI, hj] at h; cases h
        | some ss =>
          rw [caseSlice_eq c v x ss hI hj] at h
          simp only [Outcome.ret.injEq, Prod.mk.injEq] at h
          have hxc := (getValue_clean c v.Name x false hc (Interface_some _ _ hI)).2
          have hss := jsonStrings_clean x ss hxc hj
          have hdef : '\n' ∉ v.Tag.Get "default".toList :=
            Get_clean _ _ (field_clean_tag v hv)
          have hcom : '\n' ∉ v.Tag.Get "comment".toList :=
            Get_clean _ _ (field_clean_tag v hv)
          have hitems : ∀ s ∈ (if (ss.length == 0 || c.defaultOnly) = true then
              Split ',' (v.Tag.Get "default".toList)
              else ss.map (fun e =>
                if (v.Tag.Get "comment".toList == []) = true then e
                else e ++ " # ".toList ++ v.Tag.Get "comment".toList)), '\n' ∉ s := by
            intro s hs
            split at hs
            · exact fun q => hdef (Split_mem _ _ s hs _ q)
            · obtain ⟨e, he, he2⟩ := List.mem_map.1 hs
              rw [← he2]
              split
              · exact hss e he
              · have := hss e he
                intro q
                rcases List.mem_append.1 q with q | q
                · rcases List.mem_append.1 q with q | q
                  · exact this q
                  · exact absurd q (by decide)
                · exact hcom q
          have hlines : ∀ t2 ∈ (if (ss.length == 0 || c.defaultOnly) = true then
              Split ',' (v.Tag.Get "default".toList)
              else ss.map (fun e =>
                if (v.Tag.Get "comment".toList == []) = true then e
                else e ++ " # ".toList ++ v.Tag.Get "comment".toList)).map
                (itemLine c.indent),
              ∃ ls, (∀ l ∈ ls, GoodLine c.indent l) ∧ t2 = unlines ls := by
            intro t2 ht2
            obtain ⟨s, hs, hs2⟩ := List.mem_map.1 ht2
            have hg := itemLine_good c.indent s (hitems s hs)
            refine ⟨[_], ?_, hs2 ▸ hg.1⟩
            intro l hl
            simp only [List.mem_singleton] at hl
            subst hl
            exact GoodLine_weaken _ _ hg.2
          obtain ⟨ls, hls, els⟩ := flatten_lines c.indent _ hlines
          refine ⟨(Repeat ' ' (2 * c.indent) ++ v.Tag.Get "yaml".toList ++ [':']) :: ls,
            ?_, ?_, ?_⟩
          · intro l hl
            rcases List.mem_cons.1 hl with q | q
            · subst q; exact hhead.2
            · exact hls l q
          · rw [← h.1, hhead.1, els, ← unlines_append, if_neg hsep, List.append_nil]; rfl
          · intro _
            exact ⟨_, ls, rfl, List.prefix_refl _⟩
    · rw [vToYaml_primitive n c v hk, casePrimitive_eq] at h
      simp only [Outcome.ret.injEq, Prod.mk.injEq] at h
      have hsep : ¬ (c.indent = 0 ∧ (v.Typ.Kind = .Struct ∨ v.Typ.Kind = .Map)) := by
        have := primitive_not_block _ hk
        simp [this.1, this.2]
      have hdef : '\n' ∉ v.Tag.Get "default".toList := Get_clean _ _ (field_clean_tag v hv)
      have hcom : '\n' ∉ v.Tag.Get "comment".toList := Get_clean _ _ (field_clean_tag v hv)
      obtain ⟨l, hl1, hl2, hl3⟩ := leafLine_good c.indent _ _ _
        (v.Tag.Get "required".toList == "false".toList) hname
        (shownValue_clean c v.Name _ hc hdef) hcom
      refine ⟨[l], ?_, ?_, ?_⟩
      · intro l2 hl
        simp only [List.mem_singleton] at hl
        subst hl
        exact hl2
      · rw [← h.1, hl1, if_neg hsep, List.append_nil]
      · intro _
        exact ⟨l, [], rfl, hl3⟩
    · rw [vToYaml_skipped n c v hk] at h
      simp only [Outcome.ret.injEq, Prod.mk.injEq] at h
      refine ⟨[], by simp, ?_, ?_⟩
      · rw [← h.1]
        have hne : ¬ (c.indent = 0 ∧ (v.Typ.Kind = .Struct ∨ v.Typ.Kind = .Map)) := by
          intro q
          rcases q.2 with q2 | q2 <;> rw [q2] at hk <;> simp [isSkippedKind] at hk
        rw [if_neg hne]
        rfl
      · intro q
        rw [hk] at q
        cases q
theorem unlines_last (d : Nat) (ls : List Str) (hne : ls ≠ [])
    (h : ∀ l ∈ ls, GoodLine d l) : ∃ body a, a ≠ '\n' ∧ unlines ls = body ++ [a, '\n'] := by
  have hlast := h _ (List.getLast_mem hne)
  refine ⟨unlines ls.dropLast ++ (ls.getLast hne).dropLast, (ls.getLast hne).getLast hlast.2.1,
    ?_, ?_⟩
  · intro q
    exact hlast.1 (q ▸ List.getLast_mem hlast.2.1)
  · conv_lhs => rw [← List.dropLast_append_getLast hne]
    rw [unlines_append]
    conv_lhs => rw [unlines_cons, unlines_nil, ← List.dropLast_append_getLast hlast.2.1]
    simp

/-- C18: when neither the annotations nor the map keys nor the texts of the live
values hold a newline, every non-empty line of the text `vToYaml` returns for a
field at depth `d` starts with `2·d` spaces, and for a field of a kind the
renderer handles the first line starts with `2·d` spaces, the display name and
a colon. -/
theorem c18_lines_indented (n : Nat) (c : simpleYamlParser) (v : StructField) (t : Str)
    (c1 : simpleYamlParser) (hv : v.clean = true) (hc : ctxClean c = true)
    (h : vToYaml n c v = .ret (t, c1)) :
    (∀ l ∈ Split '\n' t, l ≠ [] → Repeat ' ' (2 * c.indent) <+: l) ∧
    (isSkippedKind v.Typ.Kind = false →
      ∃ l0 rest, Split '\n' t = l0 :: rest ∧
        Repeat ' ' (2 * c.indent) ++ v.Tag.Get "yaml".toList ++ [':'] <+: l0) := by
  obtain ⟨ls, hls, ht, hfirst⟩ := vToYaml_lines n c v t c1 hv hc h
  have hsplit : Split '\n' t = ls ++ Split '\n'
      (if c.indent = 0 ∧ (v.Typ.Kind = .Struct ∨ v.Typ.Kind = .Map) then "\n".toList
       else []) := by
    rw [ht]
    exact Split_unlines ls _ (fun l hl => (hls l hl).1)
  constructor
  · intro l hl hne
    rw [hsplit] at hl
    rcases List.mem_append.1 hl with q | q
    · exact (hls l q).2.2
    · split at q
      · have e : Split '\n' "\n".toList = [[], []] := by decide
        rw [e] at q
        simp only [List.mem_cons, List.mem_singleton, List.not_mem_nil, or_false,
          or_self] at q
        exact absurd q hne
      · simp only [Split, List.mem_singleton] at q
        exact absurd q hne
  · intro hk
    obtain ⟨l0, rest, e, hp⟩ := hfirst hk
    exact ⟨l0, rest ++ _, by rw [hsplit, e]; rfl, hp⟩

/-- C18 at the map `Hosts`, rendered at depth 1. -/
theorem c18_lines_indented_witness :
    (∀ l ∈ Split '\n' "  hosts:\n    x:\n      addr: 1\n    y:\n      addr: 2\n".toList,
        l ≠ [] → Repeat ' ' 2 <+: l) ∧
      (isSkippedKind hostsField.Typ.Kind = false →
        ∃ l0 rest,
          Split '\n' "  hosts:\n    x:\n      addr: 1\n    y:\n      addr: 2\n".toList =
            l0 :: rest ∧
          Repeat ' ' 2 ++ "hosts".toList ++ [':'] <+: l0) :=
  c18_lines_indented 2 hostsAtDepthOne hostsField _ hostsAtDepthOne (by decide) (by decide) rfl

/-- C14 (as stated, refuted): a string leaf field whose live value ends with a
newline yields a text that ends with two newlines, though no annotation and no
key holds a newline. -/
theorem c14_live_newline_ends_with_empty_line :
    (vToYaml 1
        { newParser false with
          originalValue := some (.Struct [(addrField, .String "a\n".toList)]) }
        addrField).text = some "addr: a\n\n".toList ∧
      addrField.clean = true := by
  decide

/-- C14 (amended): when neither the annotations nor the map keys nor the texts of
the live values hold a newline, the text of a nested structure or keyed
collection rendered at depth 0 ends with one empty line (a character that is
not a newline, then two newlines); at depth 1 or more, and for a list or a leaf
field at any depth, the text ends with exactly one newline. -/
theorem c14_blank_separator (n : Nat) (c : simpleYamlParser) (v : StructField) (t : Str)
    (c1 : simpleYamlParser) (hv : v.clean = true) (hc : ctxClean c = true)
    (h : vToYaml n c v = .ret (t, c1)) :
    ((v.Typ.Kind = .Struct ∨ v.Typ.Kind = .Map) → c.indent = 0 →
      ∃ body a, a ≠ '\n' ∧ t = body ++ [a, '\n', '\n']) ∧
    ((v.Typ.Kind = .Struct ∨ v.Typ.Kind = .Map) → 0 < c.indent →
      ∃ body a, a ≠ '\n' ∧ t = body ++ [a, '\n']) ∧
    ((v.Typ.Kind = .Slice ∨ isPrimitiveKind v.Typ.Kind = true) →
      ∃ body a, a ≠ '\n' ∧ t = body ++ [a, '\n']) := by
  obtain ⟨ls, hls, ht, hfirst⟩ := vToYaml_lines n c v t c1 hv hc h
  have hlast : isSkippedKind v.Typ.Kind = false →
      ∃ body a, a ≠ '\n' ∧ unlines ls = body ++ [a, '\n'] := by
    intro hk
    obtain ⟨l0, rest, e, _⟩ := hfirst hk
    exact unlines_last c.indent ls (by rw [e]; simp) hls
  refine ⟨?_, ?_, ?_⟩
  · intro hk h0
    have hs : isSkippedKind v.Typ.Kind = false := by
      rcases hk with q | q <;> rw [q] <;> rfl
    obtain ⟨body, a, ha, e⟩ := hlast hs
    refine ⟨body, a, ha, ?_⟩
    rw [ht, if_pos ⟨h0, hk⟩, e]
    simp
  · intro hk h0
    have hs : isSkippedKind v.Typ.Kind = false := by
      rcases hk with q | q <;> rw [q] <;> rfl
    obtain ⟨body, a, ha, e⟩ := hlast hs
    refine ⟨body, a, ha, ?_⟩
    rw [ht, if_neg (fun q => by omega), e, List.append_nil]
  · intro hk
    have hs : isSkippedKind v.Typ.Kind = false := by
      rcases hk with q | q
      · rw [q]; rfl
      · revert q; cases v.Typ.Kind <;> simp [isPrimitiveKind, isSkippedKind]
    have hnb : ¬ (c.indent = 0 ∧ (v.Typ.Kind = .Struct ∨ v.Typ.Kind = .Map)) := by
      rcases hk with q | q
      · simp [q]
      · have := primitive_not_block _ q
        simp [this.1, this.2]
    obtain ⟨body, a, ha, e⟩ := hlast hs
    refine ⟨body, a, ha, ?_⟩
    rw [ht, if_neg hnb, e, List.append_nil]

/-- C14 at the map `Hosts` rendered at depth 0, and at depth 1. -/
theorem c14_blank_separator_witness :
    (∃ body a, a ≠ '\n' ∧
        "hosts:\n  x:\n    addr: 1\n  y:\n    addr: 2\n\n".toList = body ++ [a, '\n', '\n']) ∧
      (∃ body a, a ≠ '\n' ∧
        "  hosts:\n    x:\n      addr: 1\n    y:\n      addr: 2\n".toList =
          body ++ [a, '\n']) :=
  ⟨(c14_blank_separator 2
      { newParser false with originalValue := some (.Struct [(hostsField, hostsValue)]) }
      hostsField _ _ (by decide) (by decide) rfl).1 (Or.inr rfl) rfl,
    (c14_blank_separator 2 hostsAtDepthOne hostsField _ hostsAtDepthOne (by decide)
      (by decide) rfl).2.1 (Or.inr rfl) (by decide)⟩

end genconfig
